import Mathlib

/-!
Verification of the ecfw entity/component world against its specification.

The development shallowly embeds the operations of
src/include/ecfw/core/world.hpp:

* entity identifiers are natural numbers packing a 32-bit version above a
  32-bit index (detail/entity.hpp is not part of the sources; the packing is
  modelled from the specification, with the splitting functions corroborated
  by the lsw/msw/concat usage in src/unnamed/part_000);
* boost::dynamic_bitset values become lists of booleans whose length is the
  size of the bitset;
* detail::sparse_set (header not part of the sources) is modelled from the
  specification as an insertion-ordered duplicate-free list of identifiers
  with no-op erasure of absent elements;
* the unordered_map of groups becomes an association list keyed by the
  filter bitset;
* checked-build assertions become Option-valued preconditions: an operation
  returns none exactly when one of its assertions would fire.

Component data buffers (m_buffers) hold no observable state beyond the
presence bits tracked in m_metabuffers, so they are not modelled.
-/

namespace Ecfw

/-- Number of values of a 32-bit word. -/
def W32 : Nat := 4294967296

/-- Number of values of a 64-bit word. -/
def W64 : Nat := 18446744073709551616

/-- Modelled from the spec: dtl::make_entity packs a 32-bit version above a
32-bit index (detail/entity.hpp is missing from the sources; the layout
matches the concat/msw/lsw helpers used in src/unnamed/part_000). -/
def make_entity (ver idx : Nat) : Nat := ver * W32 + idx

/-- Modelled from the spec: dtl::index_from_entity, the low 32 bits. -/
def index_from_entity (e : Nat) : Nat := e % W32

/-- Modelled from the spec: dtl::version_from_entity, the high 32 bits. -/
def version_from_entity (e : Nat) : Nat := e / W32 % W32

/-- A boost::dynamic_bitset is a list of booleans; the length is size(). -/
abbrev Bitset := List Bool

/-- A group filter is a dynamic bitset. -/
abbrev Filter := Bitset

namespace dtl

/-- detail::contains from world.hpp: position in range and bit set. -/
def contains (b : Bitset) (position : Nat) : Bool :=
  decide (position < b.length) && b.getD position false

end dtl

namespace sparse_set

/-- Modelled from the spec: a sparse set is an insertion-ordered set of
64-bit identifiers; the dense array is the list itself. -/
abbrev T := List Nat

/-- Modelled from the spec: insertion appends to the dense array; inserting
a present element is a no-op. -/
def insert (s : T) (e : Nat) : T := if e ∈ s then s else s ++ [e]

/-- Modelled from the spec: erasure removes the element from the dense
array; erasing an absent element is a no-op. -/
def erase (s : T) (e : Nat) : T := s.filter (fun x => x ≠ e)

/-- Membership test against the dense array. -/
def contains (s : T) (e : Nat) : Bool := decide (e ∈ s)

end sparse_set

/-- State of ecfw::world: the free list stack (head is the top), the
per-slot version table, the registered type indices in registration order
(a type's position is its index in this list, mirroring m_type_positions),
the per-type presence bitsets, and the cached groups keyed by filter. -/
structure World where
  free_list : List Nat
  versions : List Nat
  type_positions : List Nat
  metabuffers : List Bitset
  groups : List (Filter × sparse_set.T)
deriving Repr, DecidableEq

/-- A default-constructed world. -/
def emptyWorld : World := ⟨[], [], [], [], []⟩

/-- world::valid: the index is in range and the stored version matches. -/
def valid (w : World) (eid : Nat) : Bool :=
  decide (index_from_entity eid < w.versions.length) &&
    decide (w.versions.getD (index_from_entity eid) 0 = version_from_entity eid)

/-- world::create with no component types: pop the free list, reusing the
index with its current version; otherwise append a new slot with version 0.
Returns none when the index-space exhaustion assertion would fire. -/
def create (w : World) : Option (World × Nat) :=
  match w.free_list with
  | idx :: rest =>
      some ({ w with free_list := rest },
            make_entity (w.versions.getD idx 0) idx)
  | [] =>
      if w.versions.length < W32 - 1 then
        some ({ w with versions := w.versions ++ [0] }, w.versions.length)
      else none

/-- Position of a registered type index inside m_type_positions; returns the
length when absent (only consulted after a containment check, as the source
only calls m_type_positions.at on registered types). -/
def posInList (t : Nat) : List Nat → Nat
  | [] => 0
  | x :: xs => if x = t then 0 else posInList t xs + 1

/-- world::contains for a single type: the type has been registered. -/
def containsType (w : World) (t : Nat) : Bool := decide (t ∈ w.type_positions)

/-- The position m_type_positions.at assigns to a registered type. -/
def typePosition (w : World) (t : Nat) : Nat := posInList t w.type_positions

/-- Presence bit of position p at entity index i, reading through the
metabuffer collection (an absent metabuffer has no bits). -/
def presBit (mbs : List Bitset) (p i : Nat) : Bool :=
  dtl.contains (mbs.getD p []) i

/-- world::has for a single component type: false for invalid entities and
for unregistered types, otherwise the presence bit at the entity's index. -/
def has (w : World) (t : Nat) (eid : Nat) : Bool :=
  if !(valid w eid) || !(containsType w t) then false
  else presBit w.metabuffers (typePosition w t) (index_from_entity eid)

/-- world::orphan: reset the entity's bit in every metabuffer that contains
it and erase the entity from every group. Returns none when the validity
assertion would fire. -/
def orphan (w : World) (eid : Nat) : Option World :=
  if valid w eid then
    some { w with
      metabuffers := w.metabuffers.map (fun mb =>
        if dtl.contains mb (index_from_entity eid) then
          mb.set (index_from_entity eid) false
        else mb),
      groups := w.groups.map (fun fg => (fg.1, sparse_set.erase fg.2 eid)) }
  else none

/-- world::destroy: orphan, then store version + 1 in the slot and push the
index on the free list. Returns none when orphan's validity assertion or
the version-overflow assertion would fire. -/
def destroy (w : World) (eid : Nat) : Option World :=
  match orphan w eid with
  | none => none
  | some w1 =>
      if version_from_entity eid < W32 - 1 then
        some { w1 with
          versions :=
            w1.versions.set (index_from_entity eid)
              (version_from_entity eid + 1),
          free_list := index_from_entity eid :: w1.free_list }
      else none

/-- world::accommodate: look up the type's position, registering it with a
fresh position (and an empty metabuffer) on first reference. -/
def accommodate (w : World) (t : Nat) : World × Nat :=
  if t ∈ w.type_positions then (w, typePosition w t)
  else ({ w with
          type_positions := w.type_positions ++ [t],
          metabuffers := w.metabuffers ++ [[]] },
        w.type_positions.length)

/-- Growing resize of a dynamic bitset, appending cleared bits; the source
only resizes a metabuffer when the new size exceeds the current one. -/
def bitsetGrow (b : Bitset) (n : Nat) : Bitset :=
  b ++ List.replicate (n - b.length) false

/-- Conjunction over the set bits of a filter, as iterated by find_first
and find_next in the source. -/
def allSetBits (f : Filter) (pred : Nat → Bool) : Bool :=
  (List.range f.length).all (fun i => !(f.getD i false) || pred i)

/-- Metabuffer update performed by world::assign: grow the bitset when the
index is out of range (resize to index + 1), then set the bit. -/
def assignMb (mb : Bitset) (idx : Nat) : Bitset :=
  (if mb.length ≤ idx then bitsetGrow mb (idx + 1) else mb).set idx true

/-- Body of the group update loop of world::assign, for one cached group:
skip a group already containing the entity, skip a group whose filter does
not include the new position, and insert the entity when every set bit of
the filter is satisfied at the entity's index in the given metabuffers. -/
def assignStep (mbs : List Bitset) (pos idx eid : Nat)
    (fg : Filter × sparse_set.T) : Filter × sparse_set.T :=
  if sparse_set.contains fg.2 eid then fg
  else if !(dtl.contains fg.1 pos) then fg
  else if allSetBits fg.1 (fun i => presBit mbs i idx) then
    (fg.1, sparse_set.insert fg.2 eid)
  else fg

/-- Group update loop of world::assign over the post-update metabuffers. -/
def assignGroups (mbs : List Bitset) (pos idx eid : Nat)
    (gs : List (Filter × sparse_set.T)) : List (Filter × sparse_set.T) :=
  gs.map (assignStep mbs pos idx eid)

/-- world::assign: after the validity and absence assertions, register the
type, grow the metabuffer to cover the index, set the presence bit, then
add the entity to every group whose filter requires the new position, does
not already contain the entity, and whose every set bit is satisfied. -/
def assign (w : World) (t : Nat) (eid : Nat) : Option World :=
  if valid w eid && !(has w t eid) then
    let wp := accommodate w t
    let idx := index_from_entity eid
    let w2 : World :=
      { wp.1 with metabuffers :=
          ((wp.1).metabuffers.set wp.2
            (assignMb ((wp.1).metabuffers.getD wp.2 []) idx)) }
    some { w2 with groups := assignGroups w2.metabuffers wp.2 idx eid w2.groups }
  else none

/-- world::remove: after the validity and presence assertions, reset the
presence bit and erase the entity from every group whose filter includes
the removed type's position, unconditionally. -/
def remove (w : World) (t : Nat) (eid : Nat) : Option World :=
  if valid w eid && has w t eid then
    let pos := typePosition w t
    let idx := index_from_entity eid
    let w1 : World :=
      { w with metabuffers :=
          w.metabuffers.set pos ((w.metabuffers.getD pos []).set idx false) }
    some { w1 with groups := w1.groups.map (fun fg =>
      if dtl.contains fg.1 pos then (fg.1, sparse_set.erase fg.2 eid) else fg) }
  else none

/-- Maximum of a list of positions, as std::max over the initializer list. -/
def listMax (ps : List Nat) : Nat := ps.foldl Nat.max 0

/-- Filter construction in world::group_by: a bitset sized to the largest
position + 1 with one bit set per requested position. -/
def buildFilter (ps : List Nat) : Filter :=
  ps.foldl (fun f p => f.set p true) (List.replicate (listMax ps + 1) false)

/-- The initial population scan of world::group_by: every directory slot
whose presence bits satisfy all requested positions contributes the entity
made of its current version and index, in index order. -/
def buildGroup (w : World) (ps : List Nat) : sparse_set.T :=
  (List.range w.versions.length).foldl (fun g idx =>
    if ps.all (fun p => presBit w.metabuffers p idx) then
      sparse_set.insert g (make_entity (w.versions.getD idx 0) idx)
    else g) []

/-- Lookup of a filter among the cached groups (unordered_map::find). -/
def groupsFind : List (Filter × sparse_set.T) → Filter → Option sparse_set.T
  | [], _ => none
  | fg :: rest, f => if fg.1 = f then some fg.2 else groupsFind rest f

/-- world::group_by: build the filter, return the cached group when one
exists, otherwise scan the population once and cache the result. Returns
none when the known-positions assertions would fire. -/
def group_by (w : World) (ps : List Nat) : Option (World × sparse_set.T) :=
  if listMax ps < w.type_positions.length ∧ listMax ps < w.metabuffers.length
  then
    match groupsFind w.groups (buildFilter ps) with
    | some g => some (w, g)
    | none =>
        some ({ w with groups := w.groups ++ [(buildFilter ps, buildGroup w ps)] },
              buildGroup w ps)
  else none

/-- Accommodation of a list of requested types in declaration order,
returning the updated world and the position of each type. -/
def accommodateAll (w : World) : List Nat → World × List Nat
  | [] => (w, [])
  | t :: ts =>
      let wp := accommodate w t
      let rest := accommodateAll wp.1 ts
      (rest.1, wp.2 :: rest.2)

/-- world::view reduced to its group: accommodate every requested type in
order, then resolve the group for the resulting positions. The guard
mirrors the template arity (at least one type) and the is_unique
static assertion (no duplicate types). -/
def view (w : World) (types : List Nat) : Option (World × sparse_set.T) :=
  if types ≠ [] ∧ types.Nodup then
    group_by (accommodateAll w types).1 (accommodateAll w types).2
  else none

/-- Satisfaction of a filter at an entity index: every set bit of the
filter has the corresponding presence bit set at that index. -/
def FilterSat (mbs : List Bitset) (f : Filter) (idx : Nat) : Prop :=
  ∀ p, dtl.contains f p = true → presBit mbs p idx = true

instance FilterSat.dec (mbs : List Bitset) (f : Filter) (idx : Nat) :
    Decidable (FilterSat mbs f idx) :=
  decidable_of_iff
    (∀ p, p < f.length → dtl.contains f p = true → presBit mbs p idx = true)
    (by
      constructor
      · intro h p hp
        have hp2 := hp
        simp only [dtl.contains, Bool.and_eq_true, decide_eq_true_eq] at hp2
        exact h p hp2.1 hp
      · intro h p _ hp
        exact h p hp)

/-- The worlds reachable from a default-constructed world through the
public structural interface; entity arguments range over 64-bit values. -/
inductive Reachable : World → Prop where
  | empty : Reachable emptyWorld
  | do_create {w w' : World} {e : Nat} :
      Reachable w → create w = some (w', e) → Reachable w'
  | do_destroy {w w' : World} {e : Nat} :
      Reachable w → e < W64 → destroy w e = some w' → Reachable w'
  | do_orphan {w w' : World} {e : Nat} :
      Reachable w → e < W64 → orphan w e = some w' → Reachable w'
  | do_assign {w w' : World} {t e : Nat} :
      Reachable w → e < W64 → assign w t e = some w' → Reachable w'
  | do_remove {w w' : World} {t e : Nat} :
      Reachable w → e < W64 → remove w t e = some w' → Reachable w'
  | do_view {w w' : World} {ts : List Nat} {g : sparse_set.T} :
      Reachable w → view w ts = some (w', g) → Reachable w'

/-- Consistency of a world state: the registry and metabuffer collections
are aligned, versions and the population size fit in 32 bits, presence
bits only exist for created slots, every cached filter requires at least
one position, and every cached group contains exactly the valid entities
satisfying its filter. -/
structure Inv (w : World) : Prop where
  tlen : w.type_positions.length = w.metabuffers.length
  vlen : w.versions.length < W32
  vbound : ∀ i, w.versions.getD i 0 < W32
  mbdom : ∀ p i, presBit w.metabuffers p i = true → i < w.versions.length
  fne : ∀ fg ∈ w.groups, ∃ q, dtl.contains fg.1 q = true
  gmem : ∀ fg ∈ w.groups, ∀ e ∈ fg.2,
    e < W64 ∧ valid w e = true ∧
      FilterSat w.metabuffers fg.1 (index_from_entity e)
  gcompl : ∀ fg ∈ w.groups, ∀ e, e < W64 → valid w e = true →
    FilterSat w.metabuffers fg.1 (index_from_entity e) → e ∈ fg.2

/-- Creation of n entities, discarding the returned identifiers. -/
def createN (w : World) : Nat → Option World
  | 0 => some w
  | n + 1 =>
      match create w with
      | some wp => createN wp.1 n
      | none => none

/-- Assignment of one component type to each entity of a list in turn. -/
def assignAll (w : World) (t : Nat) (es : List Nat) : Option World :=
  es.foldl (fun ow e => ow.bind (fun w1 => assign w1 t e)) (some w)

/-- Removal of one component type from each entity of a list in turn. -/
def removeAll (w : World) (t : Nat) (es : List Nat) : Option World :=
  es.foldl (fun ow e => ow.bind (fun w1 => remove w1 t e)) (some w)

/-- View creation keeping only the world (the cached group persists in
the world's group map). -/
def viewW (w : World) (types : List Nat) : Option World :=
  (view w types).map Prod.fst

/-- Size of the cached group stored under a filter, when one exists. -/
def groupSize (w : World) (f : Filter) : Option Nat :=
  (groupsFind w.groups f).map List.length

/-- Scenario of the concrete group-maintenance test: 100 fresh entities,
then views over the type sets with filters containing type 0, type 1, and
both, created before any assignment. -/
def scen_views : Option World :=
  (createN emptyWorld 100).bind (fun w =>
    (viewW w [0]).bind (fun w1 =>
      (viewW w1 [1]).bind (fun w2 => viewW w2 [0, 1])))

/-- Scenario stage 1: type 0 assigned to all 100 entities. -/
def scen_stage1 : Option World :=
  scen_views.bind (fun w => assignAll w 0 (List.range 100))

/-- Scenario stage 2: type 1 additionally assigned to the first 50. -/
def scen_stage2 : Option World :=
  scen_stage1.bind (fun w => assignAll w 1 (List.range 50))

/-- Scenario stage 3: type 0 removed from the first 25. -/
def scen_stage3 : Option World :=
  scen_stage2.bind (fun w => removeAll w 0 (List.range 25))

/-- Scenario of the recycling test: one entity created, destroyed,
recreated and destroyed again. -/
def scen_recycle : Option World :=
  (create emptyWorld).bind (fun p =>
    (destroy p.1 p.2).bind (fun w =>
      (create w).bind (fun q => destroy q.1 q.2)))

/-- World after one create from a fresh world. -/
def wv1 : World := ⟨[], [0], [], [], []⟩

/-- World wv1 after assigning type 5 to entity 0. -/
def wv2 : World := ⟨[], [0], [5], [[true]], []⟩

/-- World wv2 after creating a view for type 5. -/
def wv3 : World := ⟨[], [0], [5], [[true]], [([true], [0])]⟩

/-- World after create, assign of type 0 to entity 0, view over type 0,
and destroy of entity 0: the freed slot is on the free list, with its
presence bits cleared and the cached group emptied. -/
def c10w4 : World := ⟨[0], [1], [0], [[false]], [([true], [])]⟩

/-- World c10w4 after assigning type 0 to the not-yet-recreated identifier
of index 0 and version 1. -/
def c10w5 : World := ⟨[0], [1], [0], [[true]], [([true], [4294967296])]⟩

/-- World c10w5 after the next create pops index 0. -/
def c10w6 : World := ⟨[], [1], [0], [[true]], [([true], [4294967296])]⟩

/-- World after create, assign of type 0 to entity 0: precursor of c10w4. -/
def c10w2 : World := ⟨[], [0], [0], [[true]], []⟩

/-- World c10w2 after a view over type 0: precursor of c10w4. -/
def c10w3 : World := ⟨[], [0], [0], [[true]], [([true], [0])]⟩

/-- World wv3 after destroying entity 0. -/
def c3w1 : World := ⟨[0], [1], [5], [[false]], [([true], [])]⟩

/-- World wv3 after removing type 5 from entity 0. -/
def c4w1 : World := ⟨[], [0], [5], [[false]], [([true], [])]⟩

/-- World after a fresh world serves a view for types 0 and 1. -/
def c5w1 : World := ⟨[], [], [0, 1], [[], []], [([true, true], [])]⟩

/-- World with two live entities at indices 0 and 1. -/
def c6w0 : World := ⟨[], [0, 0], [], [], []⟩

/-- World c6w0 after destroying entity 0. -/
def c6w1 : World := ⟨[0], [1, 0], [], [], []⟩

/-- World c6w1 after destroying entity 1. -/
def c6w2 : World := ⟨[1, 0], [1, 1], [], [], []⟩

/-- World c6w2 after one create pops index 1. -/
def c6w3 : World := ⟨[0], [1, 1], [], [], []⟩

/-- World c6w3 after another create pops index 0. -/
def c6w4 : World := ⟨[], [1, 1], [], [], []⟩

end Ecfw

namespace Ecfw

/-! ### Arithmetic facts about entity identifier packing -/

lemma W32_pos : 0 < W32 := by decide

lemma W64_eq : W64 = W32 * W32 := by decide

lemma index_lt_W32 (e : Nat) : index_from_entity e < W32 :=
  Nat.mod_lt _ W32_pos

lemma index_make_entity {v i : Nat} (hi : i < W32) :
    index_from_entity (make_entity v i) = i := by
  unfold index_from_entity make_entity
  rw [Nat.add_comm, Nat.add_mul_mod_self_right]
  exact Nat.mod_eq_of_lt hi

lemma version_make_entity {v i : Nat} (hv : v < W32) (hi : i < W32) :
    version_from_entity (make_entity v i) = v := by
  unfold version_from_entity make_entity
  rw [Nat.add_comm, Nat.add_mul_div_right _ _ W32_pos,
    Nat.div_eq_of_lt hi, Nat.zero_add]
  exact Nat.mod_eq_of_lt hv

lemma make_entity_lt_W64 {v i : Nat} (hv : v < W32) (hi : i < W32) :
    make_entity v i < W64 := by
  unfold make_entity
  rw [W64_eq]
  calc v * W32 + i < v * W32 + W32 := by omega
    _ = (v + 1) * W32 := by ring
    _ ≤ W32 * W32 := Nat.mul_le_mul_right _ (by omega)

lemma version_lt_of_lt_W64 {e : Nat} (he : e < W64) : e / W32 < W32 := by
  apply Nat.div_lt_of_lt_mul
  rw [← W64_eq]
  exact he

lemma entity_eta {e : Nat} (he : e < W64) :
    make_entity (version_from_entity e) (index_from_entity e) = e := by
  unfold make_entity version_from_entity index_from_entity
  rw [Nat.mod_eq_of_lt (version_lt_of_lt_W64 he), Nat.mul_comm]
  exact Nat.div_add_mod e W32

lemma entity_ext {e1 e2 : Nat} (h1 : e1 < W64) (h2 : e2 < W64)
    (hidx : index_from_entity e1 = index_from_entity e2)
    (hver : version_from_entity e1 = version_from_entity e2) : e1 = e2 := by
  rw [← entity_eta h1, ← entity_eta h2, hidx, hver]

/-! ### Dynamic bitset facts -/

lemma contains_eq_getD (b : Bitset) (i : Nat) :
    dtl.contains b i = b.getD i false := by
  unfold dtl.contains
  by_cases h : i < b.length
  · simp [h]
  · rw [List.getD_eq_default _ _ (Nat.le_of_not_lt h)]
    simp [h]

lemma contains_lt {b : Bitset} {i : Nat} (h : dtl.contains b i = true) :
    i < b.length := by
  unfold dtl.contains at h
  simp only [Bool.and_eq_true, decide_eq_true_eq] at h
  exact h.1

lemma contains_nil (i : Nat) : dtl.contains [] i = false := by
  simp [dtl.contains]

lemma getD_set_self (l : List Bool) (i : Nat) (a : Bool) :
    (l.set i a).getD i false = if i < l.length then a else false := by
  rw [List.getD_eq_getElem?_getD, List.getElem?_set]
  by_cases h : i < l.length <;> simp [h]

lemma getD_set_ne (l : List Bool) {i j : Nat} (h : i ≠ j) (a : Bool) :
    (l.set i a).getD j false = l.getD j false := by
  rw [List.getD_eq_getElem?_getD, List.getElem?_set_ne h,
    ← List.getD_eq_getElem?_getD]

lemma getD_bitsetGrow (b : Bitset) (n j : Nat) :
    (bitsetGrow b n).getD j false = b.getD j false := by
  unfold bitsetGrow
  by_cases h : j < b.length
  · exact List.getD_append _ _ _ _ h
  · rw [List.getD_append_right _ _ _ _ (Nat.le_of_not_lt h),
      List.getD_eq_default _ _ (Nat.le_of_not_lt h)]
    rw [List.getD_eq_getElem?_getD, List.getElem?_replicate]
    by_cases h2 : j - b.length < n - b.length <;> simp [h2]

lemma length_bitsetGrow (b : Bitset) (n : Nat) :
    (bitsetGrow b n).length = b.length + (n - b.length) := by
  unfold bitsetGrow
  simp

/-! ### Sparse set facts, following the specification model -/

lemma mem_ss_insert {s : sparse_set.T} {e x : Nat} :
    x ∈ sparse_set.insert s e ↔ x ∈ s ∨ x = e := by
  unfold sparse_set.insert
  by_cases h : e ∈ s
  · simp only [if_pos h, List.mem_append]
    constructor
    · exact Or.inl
    · rintro (hx | rfl)
      · exact hx
      · exact h
  · simp [if_neg h]

lemma mem_ss_erase {s : sparse_set.T} {e x : Nat} :
    x ∈ sparse_set.erase s e ↔ x ∈ s ∧ x ≠ e := by
  unfold sparse_set.erase
  simp [List.mem_filter]

/-! ### Type position registry facts -/

lemma posInList_lt {t : Nat} {l : List Nat} (h : t ∈ l) :
    posInList t l < l.length := by
  induction l with
  | nil => cases h
  | cons x xs ih =>
      unfold posInList
      by_cases hx : x = t
      · simp [hx]
      · rcases List.mem_cons.mp h with h1 | h2
        · exact absurd h1.symm hx
        · simpa [hx] using ih h2

lemma posInList_append_of_mem {t : Nat} {l : List Nat} (l2 : List Nat)
    (h : t ∈ l) : posInList t (l ++ l2) = posInList t l := by
  induction l with
  | nil => cases h
  | cons x xs ih =>
      unfold posInList
      by_cases hx : x = t
      · simp [hx]
      · rcases List.mem_cons.mp h with h1 | h2
        · exact absurd h1.symm hx
        · simp [hx, ih h2]

lemma posInList_append_self {t : Nat} {l : List Nat} (h : t ∉ l) :
    posInList t (l ++ [t]) = l.length := by
  induction l with
  | nil => simp [posInList]
  | cons x xs ih =>
      unfold posInList
      have hx : x ≠ t := fun hc => h (hc ▸ List.mem_cons_self x xs)
      have h2 : t ∉ xs := fun hc => h (List.mem_cons_of_mem x hc)
      simp [hx, ih h2]

lemma posInList_inj {t1 t2 : Nat} {l : List Nat} (h1 : t1 ∈ l) (h2 : t2 ∈ l)
    (heq : posInList t1 l = posInList t2 l) : t1 = t2 := by
  induction l with
  | nil => cases h1
  | cons x xs ih =>
      unfold posInList at heq
      by_cases hx1 : x = t1
      · by_cases hx2 : x = t2
        · rw [← hx1, ← hx2]
        · rw [if_pos hx1, if_neg hx2] at heq
          omega
      · by_cases hx2 : x = t2
        · rw [if_neg hx1, if_pos hx2] at heq
          omega
        · rw [if_neg hx1, if_neg hx2] at heq
          rcases List.mem_cons.mp h1 with ha | ha
          · exact absurd ha.symm hx1
          · rcases List.mem_cons.mp h2 with hb | hb
            · exact absurd hb.symm hx2
            · exact ih ha hb (by omega)

/-! ### Validity facts -/

lemma valid_iff {w : World} {e : Nat} :
    valid w e = true ↔
      index_from_entity e < w.versions.length ∧
        w.versions.getD (index_from_entity e) 0 = version_from_entity e := by
  unfold valid
  simp

lemma valid_inj {w : World} {e1 e2 : Nat} (h1 : e1 < W64) (h2 : e2 < W64)
    (hv1 : valid w e1 = true) (hv2 : valid w e2 = true)
    (hidx : index_from_entity e1 = index_from_entity e2) : e1 = e2 := by
  have a1 := valid_iff.mp hv1
  have a2 := valid_iff.mp hv2
  exact entity_ext h1 h2 hidx (by rw [← a1.2, ← a2.2, hidx])

end Ecfw

namespace Ecfw

/-! ### Filter satisfaction and the set-bit iteration of assign -/

lemma allSetBits_iff {mbs : List Bitset} {f : Filter} {idx : Nat} :
    allSetBits f (fun i => presBit mbs i idx) = true ↔ FilterSat mbs f idx := by
  unfold allSetBits FilterSat
  rw [List.all_eq_true]
  constructor
  · intro h p hp
    have hlt := contains_lt hp
    have h2 := h p (List.mem_range.mpr hlt)
    have hb : f.getD p false = true := by rw [← contains_eq_getD]; exact hp
    rw [Bool.or_eq_true, Bool.not_eq_true'] at h2
    rcases h2 with h3 | h3
    · rw [hb] at h3
      cases h3
    · exact h3
  · intro h i _
    by_cases hb : f.getD i false = true
    · have hc : dtl.contains f i = true := by rw [contains_eq_getD]; exact hb
      rw [hb]
      simp only [Bool.not_true, Bool.false_or]
      exact h i hc
    · have hb2 : f.getD i false = false := by
        cases hgd : f.getD i false
        · rfl
        · exact absurd hgd hb
      rw [hb2]
      simp only [Bool.not_false, Bool.true_or]

lemma filterSat_congr {mbs1 mbs2 : List Bitset} {f : Filter} {idx : Nat}
    (h : ∀ p, dtl.contains f p = true →
      presBit mbs1 p idx = presBit mbs2 p idx) :
    FilterSat mbs1 f idx ↔ FilterSat mbs2 f idx := by
  unfold FilterSat
  constructor
  · intro hs p hp
    rw [← h p hp]
    exact hs p hp
  · intro hs p hp
    rw [h p hp]
    exact hs p hp

/-! ### Filter construction in group_by -/

lemma le_foldl_max (ps : List Nat) (a : Nat) : a ≤ ps.foldl Nat.max a := by
  induction ps generalizing a with
  | nil => exact Nat.le_refl a
  | cons x rest ih =>
      exact Nat.le_trans (Nat.le_max_left a x) (ih (Nat.max a x))

lemma mem_le_foldl_max {p : Nat} {ps : List Nat} (a : Nat) (h : p ∈ ps) :
    p ≤ ps.foldl Nat.max a := by
  induction ps generalizing a with
  | nil => cases h
  | cons x rest ih =>
      rcases List.mem_cons.mp h with rfl | h2
      · exact Nat.le_trans (Nat.le_max_right a p) (le_foldl_max rest _)
      · exact ih _ h2

lemma le_listMax {p : Nat} {ps : List Nat} (h : p ∈ ps) : p ≤ listMax ps :=
  mem_le_foldl_max 0 h

lemma length_foldl_set (ps : List Nat) (b : Bitset) :
    (ps.foldl (fun f p => f.set p true) b).length = b.length := by
  induction ps generalizing b with
  | nil => rfl
  | cons p rest ih =>
      rw [List.foldl_cons, ih, List.length_set]

lemma getD_foldl_set (ps : List Nat) (b : Bitset) (q : Nat) :
    (ps.foldl (fun f p => f.set p true) b).getD q false =
      if q ∈ ps ∧ q < b.length then true else b.getD q false := by
  induction ps generalizing b with
  | nil => simp
  | cons p rest ih =>
      rw [List.foldl_cons, ih, List.length_set]
      by_cases h1 : q < b.length
      · by_cases h2 : q ∈ rest
        · simp [h1, h2, List.mem_cons]
        · by_cases h3 : q = p
          · subst h3
            rw [if_neg (fun hc => h2 hc.1), getD_set_self, if_pos h1,
              if_pos ⟨List.mem_cons_self q rest, h1⟩]
          · rw [if_neg (fun hc => h2 hc.1), getD_set_ne _ (fun hc => h3 hc.symm),
              if_neg (fun hc => by
                rcases List.mem_cons.mp hc.1 with hq | hq
                · exact h3 hq
                · exact h2 hq)]
      · rw [if_neg (fun hc => h1 hc.2), if_neg (fun hc => h1 hc.2),
          List.getD_eq_default _ _ (by
            rw [List.length_set]; exact Nat.le_of_not_lt h1),
          List.getD_eq_default _ _ (Nat.le_of_not_lt h1)]

lemma length_buildFilter (ps : List Nat) :
    (buildFilter ps).length = listMax ps + 1 := by
  unfold buildFilter
  rw [length_foldl_set, List.length_replicate]

lemma getD_replicate_false (n m : Nat) :
    (List.replicate n false).getD m false = false := by
  rw [List.getD_eq_getElem?_getD, List.getElem?_replicate]
  by_cases h : m < n <;> simp [h]

lemma contains_buildFilter (ps : List Nat) (q : Nat) :
    dtl.contains (buildFilter ps) q = true ↔ q ∈ ps := by
  unfold buildFilter
  rw [contains_eq_getD, getD_foldl_set, List.length_replicate]
  constructor
  · intro h
    by_cases hc : q ∈ ps ∧ q < listMax ps + 1
    · exact hc.1
    · rw [if_neg hc, getD_replicate_false] at h
      cases h
  · intro h
    rw [if_pos ⟨h, Nat.lt_succ_of_le (le_listMax h)⟩]

/-! ### The population scan of group_by -/

lemma mem_foldl_insert_if (c : Nat → Bool) (ent : Nat → Nat) (n : Nat)
    (g0 : sparse_set.T) (e : Nat) :
    (e ∈ (List.range n).foldl
        (fun g idx => if c idx then sparse_set.insert g (ent idx) else g) g0) ↔
      e ∈ g0 ∨ ∃ idx, idx < n ∧ c idx = true ∧ e = ent idx := by
  induction n with
  | zero => simp
  | succ n ih =>
      rw [List.range_succ, List.foldl_append]
      simp only [List.foldl_cons, List.foldl_nil]
      by_cases hc : c n
      · rw [if_pos hc, mem_ss_insert, ih]
        constructor
        · rintro ((h0 | ⟨i, hi, hci, he⟩) | he)
          · exact Or.inl h0
          · exact Or.inr ⟨i, Nat.lt_succ_of_lt hi, hci, he⟩
          · exact Or.inr ⟨n, Nat.lt_succ_self n, hc, he⟩
        · rintro (h0 | ⟨i, hi, hci, he⟩)
          · exact Or.inl (Or.inl h0)
          · rcases Nat.lt_succ_iff_lt_or_eq.mp hi with h | rfl
            · exact Or.inl (Or.inr ⟨i, h, hci, he⟩)
            · exact Or.inr he
      · rw [if_neg hc, ih]
        constructor
        · rintro (h0 | ⟨i, hi, hci, he⟩)
          · exact Or.inl h0
          · exact Or.inr ⟨i, Nat.lt_succ_of_lt hi, hci, he⟩
        · rintro (h0 | ⟨i, hi, hci, he⟩)
          · exact Or.inl h0
          · rcases Nat.lt_succ_iff_lt_or_eq.mp hi with h | rfl
            · exact Or.inr ⟨i, h, hci, he⟩
            · exact absurd hci hc

lemma mem_buildGroup {w : World} {ps : List Nat} {e : Nat} :
    e ∈ buildGroup w ps ↔
      ∃ idx, idx < w.versions.length ∧
        (∀ p ∈ ps, presBit w.metabuffers p idx = true) ∧
        e = make_entity (w.versions.getD idx 0) idx := by
  unfold buildGroup
  rw [mem_foldl_insert_if
    (fun idx => ps.all (fun p => presBit w.metabuffers p idx))
    (fun idx => make_entity (w.versions.getD idx 0) idx)]
  simp [List.all_eq_true]

/-! ### Lookup among the cached groups -/

lemma groupsFind_cons (fg : Filter × sparse_set.T)
    (rest : List (Filter × sparse_set.T)) (f : Filter) :
    groupsFind (fg :: rest) f =
      if fg.1 = f then some fg.2 else groupsFind rest f := rfl

lemma groupsFind_mem {l : List (Filter × sparse_set.T)} {f : Filter}
    {g : sparse_set.T} (h : groupsFind l f = some g) : (f, g) ∈ l := by
  induction l with
  | nil => cases h
  | cons fg rest ih =>
      rw [groupsFind_cons] at h
      by_cases hf : fg.1 = f
      · rw [if_pos hf] at h
        subst hf
        cases h
        exact List.mem_cons_self _ _
      · rw [if_neg hf] at h
        exact List.mem_cons_of_mem _ (ih h)

lemma groupsFind_append_of_none {l : List (Filter × sparse_set.T)} {f : Filter}
    (h : groupsFind l f = none) (l2 : List (Filter × sparse_set.T)) :
    groupsFind (l ++ l2) f = groupsFind l2 f := by
  induction l with
  | nil => rfl
  | cons fg rest ih =>
      rw [groupsFind_cons] at h
      rw [List.cons_append, groupsFind_cons]
      by_cases hf : fg.1 = f
      · rw [if_pos hf] at h
        cases h
      · rw [if_neg hf] at h ⊢
        exact ih h

/-! ### Effects of accommodate -/

lemma accommodate_versions (w : World) (t : Nat) :
    ((accommodate w t).1).versions = w.versions := by
  unfold accommodate
  split <;> rfl

lemma accommodate_free_list (w : World) (t : Nat) :
    ((accommodate w t).1).free_list = w.free_list := by
  unfold accommodate
  split <;> rfl

lemma accommodate_groups (w : World) (t : Nat) :
    ((accommodate w t).1).groups = w.groups := by
  unfold accommodate
  split <;> rfl

lemma getD_singleton_nil (k : Nat) :
    ([([] : Bitset)] : List Bitset).getD k [] = [] := by
  cases k with
  | zero => rfl
  | succ k =>
      rw [List.getD_cons_succ]
      exact List.getD_eq_default _ _ (Nat.zero_le k)

lemma accommodate_presBit (w : World) (t : Nat) (p i : Nat) :
    presBit ((accommodate w t).1).metabuffers p i = presBit w.metabuffers p i := by
  unfold accommodate
  split
  · rfl
  · show presBit (w.metabuffers ++ [[]]) p i = _
    unfold presBit
    by_cases hp : p < w.metabuffers.length
    · rw [List.getD_append _ _ _ _ hp]
    · rw [List.getD_append_right _ _ _ _ (Nat.le_of_not_lt hp),
        List.getD_eq_default _ _ (Nat.le_of_not_lt hp), getD_singleton_nil]

lemma accommodate_tlen {w : World} (t : Nat)
    (h : w.type_positions.length = w.metabuffers.length) :
    ((accommodate w t).1).type_positions.length =
      ((accommodate w t).1).metabuffers.length := by
  unfold accommodate
  split
  · exact h
  · simp [h]

lemma accommodate_mem (w : World) (t : Nat) :
    t ∈ ((accommodate w t).1).type_positions := by
  unfold accommodate
  split
  · next h => exact h
  · exact List.mem_append.mpr (Or.inr (List.mem_singleton.mpr rfl))

lemma accommodate_tp_mono {w : World} {t2 : Nat} (t : Nat)
    (h : t2 ∈ w.type_positions) : t2 ∈ ((accommodate w t).1).type_positions := by
  unfold accommodate
  split
  · exact h
  · exact List.mem_append.mpr (Or.inl h)

lemma accommodate_pos (w : World) (t : Nat) :
    (accommodate w t).2 = posInList t ((accommodate w t).1).type_positions := by
  unfold accommodate
  split
  · rfl
  · next h => exact (posInList_append_self h).symm

lemma accommodate_pos_lt {w : World} (t : Nat)
    (h : w.type_positions.length = w.metabuffers.length) :
    (accommodate w t).2 < ((accommodate w t).1).metabuffers.length := by
  unfold accommodate
  split
  · next hmem =>
      show typePosition w t < w.metabuffers.length
      rw [← h]
      exact posInList_lt hmem
  · show w.type_positions.length < (w.metabuffers ++ [[]]).length
    simp [h]

lemma accommodate_stable {w : World} {t2 : Nat} (t : Nat)
    (h : t2 ∈ w.type_positions) :
    posInList t2 ((accommodate w t).1).type_positions =
      posInList t2 w.type_positions := by
  unfold accommodate
  split
  · rfl
  · exact posInList_append_of_mem _ h

end Ecfw

namespace Ecfw

/-! ### Generic getD/set interaction -/

lemma getDSet {α : Type} (l : List α) (i j : Nat) (a d : α) :
    (l.set i a).getD j d = if i = j ∧ i < l.length then a else l.getD j d := by
  rw [List.getD_eq_getElem?_getD, List.getElem?_set]
  by_cases h1 : i = j
  · subst h1
    by_cases h2 : i < l.length
    · rw [if_pos rfl, if_pos h2, if_pos ⟨rfl, h2⟩]
      rfl
    · rw [if_pos rfl, if_neg h2, if_neg (fun hc => h2 hc.2),
        List.getD_eq_default _ _ (Nat.le_of_not_lt h2)]
      rfl
  · rw [if_neg h1, if_neg (fun hc => h1 hc.1), ← List.getD_eq_getElem?_getD]

lemma getD_map_default {α β : Type} (f : α → β) (l : List α) (p : Nat)
    (d : α) (d₂ : β) (hp : p < l.length) :
    (l.map f).getD p d₂ = f (l.getD p d) := by
  rw [List.getD_eq_getElem?_getD, List.getElem?_map,
    List.getElem?_eq_getElem hp, List.getD_eq_getElem?_getD,
    List.getElem?_eq_getElem hp]
  rfl

lemma presBit_lt_length {mbs : List Bitset} {p i : Nat}
    (h : presBit mbs p i = true) : p < mbs.length := by
  by_contra hge
  unfold presBit at h
  rw [List.getD_eq_default _ _ (Nat.le_of_not_lt hge), contains_nil] at h
  cases h

/-! ### Elimination of the Option-valued operations -/

lemma orphan_elim {w : World} {e : Nat} {w1 : World} (h : orphan w e = some w1) :
    valid w e = true ∧
      w1 = { w with
        metabuffers := w.metabuffers.map (fun mb =>
          if dtl.contains mb (index_from_entity e) then
            mb.set (index_from_entity e) false
          else mb),
        groups := w.groups.map (fun fg => (fg.1, sparse_set.erase fg.2 e)) } := by
  unfold orphan at h
  by_cases hv : valid w e = true
  · rw [if_pos hv] at h
    cases h
    exact ⟨hv, rfl⟩
  · rw [if_neg hv] at h
    cases h

lemma orphan_intro {w : World} {e : Nat} (hv : valid w e = true) :
    orphan w e = some { w with
      metabuffers := w.metabuffers.map (fun mb =>
        if dtl.contains mb (index_from_entity e) then
          mb.set (index_from_entity e) false
        else mb),
      groups := w.groups.map (fun fg => (fg.1, sparse_set.erase fg.2 e)) } := by
  unfold orphan
  rw [if_pos hv]

lemma destroy_elim {w : World} {e : Nat} {w2 : World}
    (h : destroy w e = some w2) :
    ∃ w1, orphan w e = some w1 ∧ version_from_entity e < W32 - 1 ∧
      w2 = { w1 with
        versions := w1.versions.set (index_from_entity e)
          (version_from_entity e + 1),
        free_list := index_from_entity e :: w1.free_list } := by
  unfold destroy at h
  cases ho : orphan w e with
  | none => rw [ho] at h; cases h
  | some w1 =>
      rw [ho] at h
      have h2 : (if version_from_entity e < W32 - 1 then
          some { w1 with
            versions := w1.versions.set (index_from_entity e)
              (version_from_entity e + 1),
            free_list := index_from_entity e :: w1.free_list }
          else none) = some w2 := h
      by_cases hv : version_from_entity e < W32 - 1
      · rw [if_pos hv] at h2
        cases h2
        exact ⟨w1, rfl, hv, rfl⟩
      · rw [if_neg hv] at h2
        cases h2

lemma destroy_none_of_invalid {w : World} {e : Nat}
    (hv : valid w e = false) : destroy w e = none := by
  unfold destroy orphan
  rw [if_neg (by rw [hv]; exact Bool.false_ne_true)]

lemma assign_elim {w : World} {t e : Nat} {w' : World}
    (h : assign w t e = some w') :
    valid w e = true ∧ has w t e = false ∧
      w' = { (accommodate w t).1 with
        metabuffers := (((accommodate w t).1).metabuffers.set (accommodate w t).2
          (assignMb (((accommodate w t).1).metabuffers.getD (accommodate w t).2 [])
            (index_from_entity e))),
        groups := assignGroups
          (((accommodate w t).1).metabuffers.set (accommodate w t).2
            (assignMb (((accommodate w t).1).metabuffers.getD (accommodate w t).2 [])
              (index_from_entity e)))
          (accommodate w t).2 (index_from_entity e) e
          ((accommodate w t).1).groups } := by
  unfold assign at h
  by_cases hg : (valid w e && !(has w t e)) = true
  · rw [if_pos hg] at h
    rw [Bool.and_eq_true, Bool.not_eq_true'] at hg
    cases h
    exact ⟨hg.1, hg.2, rfl⟩
  · rw [if_neg hg] at h
    cases h

lemma remove_elim {w : World} {t e : Nat} {w' : World}
    (h : remove w t e = some w') :
    valid w e = true ∧ has w t e = true ∧
      w' = { w with
        metabuffers := w.metabuffers.set (typePosition w t)
          ((w.metabuffers.getD (typePosition w t) []).set (index_from_entity e) false),
        groups := w.groups.map (fun fg =>
          if dtl.contains fg.1 (typePosition w t) then
            (fg.1, sparse_set.erase fg.2 e)
          else fg) } := by
  unfold remove at h
  by_cases hg : (valid w e && has w t e) = true
  · rw [if_pos hg] at h
    rw [Bool.and_eq_true] at hg
    cases h
    exact ⟨hg.1, hg.2, rfl⟩
  · rw [if_neg hg] at h
    cases h

lemma create_elim {w : World} {w' : World} {e : Nat}
    (h : create w = some (w', e)) :
    (∃ idx rest, w.free_list = idx :: rest ∧
      w' = { w with free_list := rest } ∧
      e = make_entity (w.versions.getD idx 0) idx) ∨
    (w.free_list = [] ∧ w.versions.length < W32 - 1 ∧
      w' = { w with versions := w.versions ++ [0] } ∧
      e = w.versions.length) := by
  unfold create at h
  cases hfl : w.free_list with
  | cons idx rest =>
      rw [hfl] at h
      cases h
      exact Or.inl ⟨idx, rest, rfl, rfl, rfl⟩
  | nil =>
      rw [hfl] at h
      by_cases hv : w.versions.length < W32 - 1
      · rw [if_pos hv] at h
        cases h
        exact Or.inr ⟨rfl, hv, rfl, rfl⟩
      · rw [if_neg hv] at h
        cases h

/-! ### Pointwise presence-bit effect of each metabuffer update -/

lemma orphan_presBit_map (mbs : List Bitset) (idx p i : Nat) :
    presBit (mbs.map (fun mb =>
      if dtl.contains mb idx then mb.set idx false else mb)) p i =
      if i = idx then false else presBit mbs p i := by
  unfold presBit
  by_cases hp : p < mbs.length
  · rw [getD_map_default
      (fun mb => if dtl.contains mb idx then mb.set idx false else mb)
      mbs p [] [] hp]
    by_cases hc : dtl.contains (mbs.getD p []) idx = true
    · rw [if_pos hc, contains_eq_getD, contains_eq_getD, getDSet]
      by_cases hi : i = idx
      · rw [if_pos hi]
        by_cases hlt : idx < (mbs.getD p []).length
        · rw [if_pos ⟨hi.symm, hlt⟩]
        · rw [if_neg (fun hcc => hlt hcc.2), hi,
            List.getD_eq_default _ _ (Nat.le_of_not_lt hlt)]
      · rw [if_neg hi, if_neg (fun hcc => hi hcc.1.symm)]
    · rw [if_neg hc]
      by_cases hi : i = idx
      · rw [if_pos hi, hi]
        cases hcc : dtl.contains (mbs.getD p []) idx
        · rfl
        · exact absurd hcc hc
      · rw [if_neg hi]
  · rw [List.getD_eq_default _ _ (by rw [List.length_map]; exact Nat.le_of_not_lt hp),
      List.getD_eq_default _ _ (Nat.le_of_not_lt hp), contains_nil]
    by_cases hi : i = idx
    · rw [if_pos hi]
    · rw [if_neg hi]

lemma getD_assignMb (mb : Bitset) (idx j : Nat) :
    (assignMb mb idx).getD j false = if j = idx then true else mb.getD j false := by
  unfold assignMb
  by_cases hg : mb.length ≤ idx
  · rw [if_pos hg, getDSet]
    by_cases hj : j = idx
    · subst hj
      rw [if_pos ⟨rfl, by rw [length_bitsetGrow]; omega⟩, if_pos rfl]
    · rw [if_neg (fun hc => hj hc.1.symm), if_neg hj, getD_bitsetGrow]
  · rw [if_neg hg, getDSet]
    by_cases hj : j = idx
    · subst hj
      rw [if_pos ⟨rfl, Nat.lt_of_not_le hg⟩, if_pos rfl]
    · rw [if_neg (fun hc => hj hc.1.symm), if_neg hj]

lemma assign_presBit_set (mbs : List Bitset) (pos idx p i : Nat)
    (hpos : pos < mbs.length) :
    presBit (mbs.set pos (assignMb (mbs.getD pos []) idx)) p i =
      if p = pos ∧ i = idx then true else presBit mbs p i := by
  unfold presBit
  rw [contains_eq_getD, contains_eq_getD, getDSet]
  by_cases hp : pos = p
  · subst hp
    rw [if_pos ⟨rfl, hpos⟩, getD_assignMb]
    by_cases hi : i = idx
    · rw [if_pos hi, if_pos ⟨rfl, hi⟩]
    · rw [if_neg hi, if_neg (fun hc => hi hc.2)]
  · rw [if_neg (fun hc => hp hc.1), if_neg (fun hc => hp hc.1.symm)]

lemma remove_presBit_set (mbs : List Bitset) (pos idx p i : Nat) :
    presBit (mbs.set pos ((mbs.getD pos []).set idx false)) p i =
      if p = pos ∧ i = idx then false else presBit mbs p i := by
  unfold presBit
  rw [contains_eq_getD, contains_eq_getD, getDSet]
  by_cases hp : pos = p
  · subst hp
    by_cases hpos : pos < mbs.length
    · rw [if_pos ⟨rfl, hpos⟩, getDSet]
      by_cases hi : i = idx
      · by_cases hlt : idx < (mbs.getD pos []).length
        · rw [if_pos ⟨hi.symm, hlt⟩, if_pos ⟨rfl, hi⟩]
        · rw [if_neg (fun hc => hlt hc.2), if_pos ⟨rfl, hi⟩, hi,
            List.getD_eq_default _ _ (Nat.le_of_not_lt hlt)]
      · rw [if_neg (fun hc => hi hc.1.symm), if_neg (fun hc => hi hc.2)]
    · rw [if_neg (fun hc => hpos hc.2)]
      by_cases hi : i = idx
      · rw [if_pos ⟨rfl, hi⟩, List.getD_eq_default _ _ (Nat.le_of_not_lt hpos),
          List.getD_eq_default _ _ (Nat.zero_le i)]
      · rw [if_neg (fun hc => hi hc.2)]
  · rw [if_neg (fun hc => hp hc.1), if_neg (fun hc => hp hc.1.symm)]

/-! ### Validity under directory changes -/

lemma valid_only_versions {w1 w2 : World} (h : w1.versions = w2.versions)
    (e : Nat) : valid w1 e = valid w2 e := by
  unfold valid
  rw [h]

lemma valid_append_iff {w : World} {e : Nat} :
    valid { w with versions := w.versions ++ [0] } e = true ↔
      valid w e = true ∨
        (index_from_entity e = w.versions.length ∧
          version_from_entity e = 0) := by
  unfold valid
  simp only [Bool.and_eq_true, decide_eq_true_eq, List.length_append,
    List.length_cons, List.length_nil]
  constructor
  · rintro ⟨hlt, hgd⟩
    by_cases h : index_from_entity e < w.versions.length
    · exact Or.inl ⟨h, by rwa [List.getD_append _ _ _ _ h] at hgd⟩
    · have hidx : index_from_entity e = w.versions.length := by omega
      refine Or.inr ⟨hidx, ?_⟩
      rw [List.getD_append_right _ _ _ _ (Nat.le_of_eq hidx.symm), hidx,
        Nat.sub_self] at hgd
      exact hgd.symm
  · rintro (⟨hlt, hgd⟩ | ⟨hidx, hver⟩)
    · exact ⟨by omega, by rwa [List.getD_append _ _ _ _ hlt]⟩
    · refine ⟨by omega, ?_⟩
      rw [List.getD_append_right _ _ _ _ (Nat.le_of_eq hidx.symm), hidx,
        Nat.sub_self, hver]
      rfl

lemma valid_set_ne {w : World} {idx v e : Nat}
    (h : index_from_entity e ≠ idx) (w' : World)
    (hv : w'.versions = w.versions.set idx v) :
    valid w' e = valid w e := by
  unfold valid
  rw [hv, List.length_set, getDSet, if_neg (fun hc => h hc.1.symm)]

end Ecfw

namespace Ecfw

/-! ### Characterisation of has and of the assign group step -/

lemma has_true_iff {w : World} {t e : Nat} :
    has w t e = true ↔
      valid w e = true ∧ containsType w t = true ∧
        presBit w.metabuffers (typePosition w t) (index_from_entity e) = true := by
  unfold has
  cases hv : valid w e <;> cases hc : containsType w t <;> simp [hv, hc]

lemma assignStep_fst (mbs : List Bitset) (pos idx e : Nat)
    (fg : Filter × sparse_set.T) :
    (assignStep mbs pos idx e fg).1 = fg.1 := by
  unfold assignStep
  by_cases h1 : sparse_set.contains fg.2 e = true
  · rw [if_pos h1]
  · rw [if_neg h1]
    by_cases h2 : (!(dtl.contains fg.1 pos)) = true
    · rw [if_pos h2]
    · rw [if_neg h2]
      by_cases h3 : allSetBits fg.1 (fun i => presBit mbs i idx) = true
      · rw [if_pos h3]
      · rw [if_neg h3]

lemma assignStep_mem {mbs : List Bitset} {pos idx e : Nat}
    {fg : Filter × sparse_set.T} {x : Nat} :
    x ∈ (assignStep mbs pos idx e fg).2 ↔
      x ∈ fg.2 ∨ (x = e ∧ dtl.contains fg.1 pos = true ∧
        FilterSat mbs fg.1 idx) := by
  unfold assignStep
  by_cases h1 : sparse_set.contains fg.2 e = true
  · rw [if_pos h1]
    have he : e ∈ fg.2 := by
      unfold sparse_set.contains at h1
      exact of_decide_eq_true h1
    constructor
    · exact Or.inl
    · rintro (hx | ⟨rfl, _, _⟩)
      · exact hx
      · exact he
  · rw [if_neg h1]
    by_cases h2 : (!(dtl.contains fg.1 pos)) = true
    · rw [if_pos h2]
      rw [Bool.not_eq_true'] at h2
      constructor
      · exact Or.inl
      · rintro (hx | ⟨rfl, hbit, _⟩)
        · exact hx
        · rw [h2] at hbit
          cases hbit
    · rw [if_neg h2]
      rw [Bool.not_eq_true', Bool.not_eq_false] at h2
      by_cases h3 : allSetBits fg.1 (fun i => presBit mbs i idx) = true
      · rw [if_pos h3]
        rw [allSetBits_iff] at h3
        rw [mem_ss_insert]
        constructor
        · rintro (hx | rfl)
          · exact Or.inl hx
          · exact Or.inr ⟨rfl, h2, h3⟩
        · rintro (hx | ⟨rfl, _, _⟩)
          · exact Or.inl hx
          · exact Or.inr rfl
      · rw [if_neg h3]
        constructor
        · exact Or.inl
        · rintro (hx | ⟨rfl, _, hsat⟩)
          · exact hx
          · exact absurd (allSetBits_iff.mpr hsat) h3

/-! ### Invariant preservation -/

lemma inv_empty : Inv emptyWorld := by
  refine ⟨rfl, by decide, ?_, ?_, ?_, ?_, ?_⟩
  · intro i
    rw [show emptyWorld.versions = [] from rfl,
      List.getD_eq_default _ _ (Nat.zero_le i)]
    decide
  · intro p i hb
    unfold presBit at hb
    rw [show emptyWorld.metabuffers = [] from rfl,
      List.getD_eq_default _ _ (Nat.zero_le p), contains_nil] at hb
    cases hb
  · intro fg hfg
    cases hfg
  · intro fg hfg
    cases hfg
  · intro fg hfg
    cases hfg

lemma inv_create {w w' : World} {e : Nat} (hI : Inv w)
    (h : create w = some (w', e)) : Inv w' := by
  rcases create_elim h with ⟨idx, rest, hfl, hw', he⟩ | ⟨hfl, hlen, hw', he⟩
  · subst hw'
    exact ⟨hI.tlen, hI.vlen, hI.vbound, hI.mbdom, hI.fne, hI.gmem, hI.gcompl⟩
  · subst hw'
    have h32 : W32 = 4294967296 := rfl
    refine ⟨hI.tlen, ?_, ?_, ?_, hI.fne, ?_, ?_⟩
    · show (w.versions ++ [0]).length < W32
      rw [List.length_append]
      have := hI.vlen
      simp only [List.length_cons, List.length_nil]
      omega
    · intro i
      show (w.versions ++ [0]).getD i 0 < W32
      by_cases hi : i < w.versions.length
      · rw [List.getD_append _ _ _ _ hi]
        exact hI.vbound i
      · rw [List.getD_append_right _ _ _ _ (Nat.le_of_not_lt hi)]
        cases hk : i - w.versions.length with
        | zero => rw [List.getD_cons_zero]; omega
        | succ k =>
            rw [List.getD_cons_succ, List.getD_eq_default _ _ (Nat.zero_le k)]
            omega
    · intro p i hb
      have := hI.mbdom p i hb
      show i < (w.versions ++ [0]).length
      rw [List.length_append]
      omega
    · intro fg hfg e' he'
      obtain ⟨hb, hv, hf⟩ := hI.gmem fg hfg e' he'
      exact ⟨hb, valid_append_iff.mpr (Or.inl hv), hf⟩
    · intro fg hfg e' hb hv hf
      rcases valid_append_iff.mp hv with hv2 | ⟨hidx, hver⟩
      · exact hI.gcompl fg hfg e' hb hv2 hf
      · exfalso
        obtain ⟨q, hq⟩ := hI.fne fg hfg
        have hbit := hf q hq
        rw [hidx] at hbit
        exact absurd (hI.mbdom q _ hbit) (lt_irrefl _)

lemma inv_orphan {w w1 : World} {e : Nat} (hI : Inv w) (he : e < W64)
    (h : orphan w e = some w1) : Inv w1 := by
  obtain ⟨hv, hw1⟩ := orphan_elim h
  subst hw1
  refine ⟨?_, hI.vlen, hI.vbound, ?_, ?_, ?_, ?_⟩
  · show w.type_positions.length = (w.metabuffers.map _).length
    rw [List.length_map]
    exact hI.tlen
  · intro p i hb
    have hb2 : presBit (w.metabuffers.map (fun mb =>
        if dtl.contains mb (index_from_entity e) then
          mb.set (index_from_entity e) false else mb)) p i = true := hb
    rw [orphan_presBit_map] at hb2
    by_cases hii : i = index_from_entity e
    · rw [if_pos hii] at hb2
      cases hb2
    · rw [if_neg hii] at hb2
      exact hI.mbdom p i hb2
  · intro fg hfg
    rw [List.mem_map] at hfg
    obtain ⟨fg0, hfg0, rfl⟩ := hfg
    exact hI.fne fg0 hfg0
  · intro fg hfg e' he'
    rw [List.mem_map] at hfg
    obtain ⟨fg0, hfg0, rfl⟩ := hfg
    obtain ⟨he'0, hne⟩ := mem_ss_erase.mp he'
    obtain ⟨hb, hv', hf⟩ := hI.gmem fg0 hfg0 e' he'0
    have hne_idx : index_from_entity e' ≠ index_from_entity e :=
      fun hc => hne (valid_inj hb he hv' hv hc)
    refine ⟨hb, hv', ?_⟩
    intro p hp
    have hg : presBit (w.metabuffers.map (fun mb =>
        if dtl.contains mb (index_from_entity e) then
          mb.set (index_from_entity e) false else mb)) p (index_from_entity e') =
        presBit w.metabuffers p (index_from_entity e') := by
      rw [orphan_presBit_map, if_neg hne_idx]
    rw [show ({ w with
        metabuffers := w.metabuffers.map (fun mb =>
          if dtl.contains mb (index_from_entity e) then
            mb.set (index_from_entity e) false else mb),
        groups := w.groups.map (fun fg => (fg.1, sparse_set.erase fg.2 e)) }
          : World).metabuffers = w.metabuffers.map (fun mb =>
          if dtl.contains mb (index_from_entity e) then
            mb.set (index_from_entity e) false else mb) from rfl, hg]
    exact hf p hp
  · intro fg hfg e' hb hv' hf
    rw [List.mem_map] at hfg
    obtain ⟨fg0, hfg0, rfl⟩ := hfg
    by_cases hii : index_from_entity e' = index_from_entity e
    · exfalso
      obtain ⟨q, hq⟩ := hI.fne fg0 hfg0
      have hx : presBit (w.metabuffers.map (fun mb =>
          if dtl.contains mb (index_from_entity e) then
            mb.set (index_from_entity e) false else mb)) q
            (index_from_entity e') = true := hf q hq
      rw [orphan_presBit_map, if_pos hii] at hx
      cases hx
    · have hf0 : FilterSat w.metabuffers fg0.1 (index_from_entity e') := by
        intro p hp
        have hx : presBit (w.metabuffers.map (fun mb =>
            if dtl.contains mb (index_from_entity e) then
              mb.set (index_from_entity e) false else mb)) p
              (index_from_entity e') = true := hf p hp
        rwa [orphan_presBit_map, if_neg hii] at hx
      have hmem := hI.gcompl fg0 hfg0 e' hb hv' hf0
      exact mem_ss_erase.mpr ⟨hmem, fun hc => hii (by rw [hc])⟩

end Ecfw

namespace Ecfw

lemma inv_destroy {w w2 : World} {e : Nat} (hI : Inv w) (he : e < W64)
    (h : destroy w e = some w2) : Inv w2 := by
  obtain ⟨w1, ho, hver, hw2⟩ := destroy_elim h
  have hI1 := inv_orphan hI he ho
  obtain ⟨hv, hw1⟩ := orphan_elim ho
  have hvers1 : w1.versions = w.versions := by rw [hw1]
  have hpb : ∀ p i, presBit w1.metabuffers p i =
      if i = index_from_entity e then false
      else presBit w.metabuffers p i := by
    intro p i
    rw [hw1]
    exact orphan_presBit_map _ _ _ _
  have hvalid1 : valid w1 e = true := by
    rw [valid_only_versions hvers1]
    exact hv
  have hnomem : ∀ fg ∈ w1.groups, e ∉ fg.2 := by
    intro fg hfg hemem
    rw [hw1] at hfg
    rw [List.mem_map] at hfg
    obtain ⟨fg0, _, rfl⟩ := hfg
    exact (mem_ss_erase.mp hemem).2 rfl
  subst hw2
  have h32 : W32 = 4294967296 := rfl
  refine ⟨hI1.tlen, ?_, ?_, ?_, hI1.fne, ?_, ?_⟩
  · show (w1.versions.set _ _).length < W32
    rw [List.length_set]
    exact hI1.vlen
  · intro i
    show (w1.versions.set _ _).getD i 0 < W32
    rw [getDSet]
    by_cases hc : index_from_entity e = i ∧ index_from_entity e < w1.versions.length
    · rw [if_pos hc]
      omega
    · rw [if_neg hc]
      exact hI1.vbound i
  · intro p i hb
    have := hI1.mbdom p i hb
    show i < (w1.versions.set _ _).length
    rw [List.length_set]
    exact this
  · intro fg hfg e' he'
    obtain ⟨hb, hv', hf⟩ := hI1.gmem fg hfg e' he'
    have hne : e' ≠ e := fun hc => hnomem fg hfg (hc ▸ he')
    have hii : index_from_entity e' ≠ index_from_entity e :=
      fun hc => hne (valid_inj hb he hv' hvalid1 hc)
    refine ⟨hb, ?_, hf⟩
    have hvi := valid_iff.mp hv'
    refine valid_iff.mpr ⟨?_, ?_⟩
    · show index_from_entity e' <
        (w1.versions.set (index_from_entity e) (version_from_entity e + 1)).length
      rw [List.length_set]
      exact hvi.1
    · show (w1.versions.set (index_from_entity e)
        (version_from_entity e + 1)).getD (index_from_entity e') 0 =
        version_from_entity e'
      rw [getDSet, if_neg (fun hc => hii hc.1.symm)]
      exact hvi.2
  · intro fg hfg e' hb hv2 hf
    by_cases hii : index_from_entity e' = index_from_entity e
    · exfalso
      obtain ⟨q, hq⟩ := hI1.fne fg hfg
      have hx : presBit w1.metabuffers q (index_from_entity e') = true := hf q hq
      rw [hpb, hii, if_pos rfl] at hx
      cases hx
    · have hvi := valid_iff.mp hv2
      have h1 : index_from_entity e' <
          (w1.versions.set (index_from_entity e) (version_from_entity e + 1)).length :=
        hvi.1
      have h2 : (w1.versions.set (index_from_entity e)
          (version_from_entity e + 1)).getD (index_from_entity e') 0 =
          version_from_entity e' := hvi.2
      rw [List.length_set] at h1
      rw [getDSet, if_neg (fun hc => hii hc.1.symm)] at h2
      exact hI1.gcompl fg hfg e' hb (valid_iff.mpr ⟨h1, h2⟩) hf

lemma inv_accommodate {w : World} (hI : Inv w) (t : Nat) :
    Inv (accommodate w t).1 := by
  refine ⟨accommodate_tlen t hI.tlen, ?_, ?_, ?_, ?_, ?_, ?_⟩
  · rw [accommodate_versions]
    exact hI.vlen
  · intro i
    rw [accommodate_versions]
    exact hI.vbound i
  · intro p i hb
    rw [accommodate_presBit] at hb
    rw [accommodate_versions]
    exact hI.mbdom p i hb
  · intro fg hfg
    rw [accommodate_groups] at hfg
    exact hI.fne fg hfg
  · intro fg hfg e' he'
    rw [accommodate_groups] at hfg
    obtain ⟨hb, hv', hf⟩ := hI.gmem fg hfg e' he'
    refine ⟨hb, ?_, ?_⟩
    · rw [valid_only_versions (accommodate_versions w t)]
      exact hv'
    · intro p hp
      rw [accommodate_presBit]
      exact hf p hp
  · intro fg hfg e' hb hv' hf
    rw [accommodate_groups] at hfg
    refine hI.gcompl fg hfg e' hb ?_ ?_
    · rw [← valid_only_versions (accommodate_versions w t)]
      exact hv'
    · intro p hp
      rw [← accommodate_presBit w t]
      exact hf p hp

lemma inv_assign {w w' : World} {t e : Nat} (hI : Inv w) (he : e < W64)
    (h : assign w t e = some w') : Inv w' := by
  obtain ⟨hv, hhas, hw'⟩ := assign_elim h
  have hIA := inv_accommodate hI t
  have hposA : (accommodate w t).2 < ((accommodate w t).1).metabuffers.length :=
    accommodate_pos_lt t hI.tlen
  have hversA := accommodate_versions w t
  have hgroupsA := accommodate_groups w t
  have hpbM : ∀ p i,
      presBit (((accommodate w t).1).metabuffers.set (accommodate w t).2
        (assignMb (((accommodate w t).1).metabuffers.getD (accommodate w t).2 [])
          (index_from_entity e))) p i =
      if p = (accommodate w t).2 ∧ i = index_from_entity e then true
      else presBit w.metabuffers p i := by
    intro p i
    rw [assign_presBit_set _ _ _ _ _ hposA, accommodate_presBit]
  have hidx_lt : index_from_entity e < w.versions.length := (valid_iff.mp hv).1
  subst hw'
  refine ⟨?_, ?_, ?_, ?_, ?_, ?_, ?_⟩
  · show ((accommodate w t).1).type_positions.length = (List.set _ _ _).length
    rw [List.length_set]
    exact hIA.tlen
  · show ((accommodate w t).1).versions.length < W32
    exact hIA.vlen
  · intro i
    show ((accommodate w t).1).versions.getD i 0 < W32
    exact hIA.vbound i
  · intro p i hb
    have hb2 := hb
    rw [hpbM] at hb2
    show i < ((accommodate w t).1).versions.length
    rw [hversA]
    by_cases hc : p = (accommodate w t).2 ∧ i = index_from_entity e
    · rw [hc.2]
      exact hidx_lt
    · rw [if_neg hc] at hb2
      exact hI.mbdom p i hb2
  · intro fg hfg
    unfold assignGroups at hfg
    rw [List.mem_map] at hfg
    obtain ⟨fg0, hfg0, rfl⟩ := hfg
    rw [assignStep_fst]
    rw [hgroupsA] at hfg0
    exact hI.fne fg0 hfg0
  · intro fg hfg e' he'
    unfold assignGroups at hfg
    rw [List.mem_map] at hfg
    obtain ⟨fg0, hfg0, rfl⟩ := hfg
    rw [hgroupsA] at hfg0
    rcases assignStep_mem.mp he' with he'0 | ⟨rfl, hbit, hsat⟩
    · obtain ⟨hb, hv', hf⟩ := hI.gmem fg0 hfg0 e' he'0
      refine ⟨hb, show valid (accommodate w t).1 e' = true by
        rw [valid_only_versions hversA e']; exact hv', ?_⟩
      rw [assignStep_fst]
      intro p hp
      rw [hpbM]
      by_cases hc : p = (accommodate w t).2 ∧ index_from_entity e' = index_from_entity e
      · rw [if_pos hc]
      · rw [if_neg hc]
        exact hf p hp
    · refine ⟨he, show valid (accommodate w t).1 e' = true by
        rw [valid_only_versions hversA e']; exact hv, ?_⟩
      rw [assignStep_fst]
      exact hsat
  · intro fg hfg e' hb hv' hf
    unfold assignGroups at hfg
    rw [List.mem_map] at hfg
    obtain ⟨fg0, hfg0, rfl⟩ := hfg
    rw [hgroupsA] at hfg0
    rw [assignStep_fst] at hf
    have hvw : valid w e' = true := by
      have hx : valid (accommodate w t).1 e' = true := hv'
      rwa [valid_only_versions hversA e'] at hx
    by_cases hii : index_from_entity e' = index_from_entity e
    · by_cases hee : e' = e
      · by_cases hbit : dtl.contains fg0.1 (accommodate w t).2 = true
        · refine assignStep_mem.mpr (Or.inr ⟨hee, hbit, ?_⟩)
          intro p hp
          have hx := hf p hp
          rwa [hii] at hx
        · refine assignStep_mem.mpr (Or.inl ?_)
          refine hI.gcompl fg0 hfg0 e' hb hvw ?_
          intro p hp
          have hx := hf p hp
          have hcneg : ¬(p = (accommodate w t).2 ∧
              index_from_entity e' = index_from_entity e) :=
            fun hc => hbit (hc.1 ▸ hp)
          rw [hpbM, if_neg hcneg] at hx
          exact hx
      · exact absurd (valid_inj hb he hvw hv hii) hee
    · refine assignStep_mem.mpr (Or.inl ?_)
      refine hI.gcompl fg0 hfg0 e' hb hvw ?_
      intro p hp
      have hx := hf p hp
      have hcneg : ¬(p = (accommodate w t).2 ∧
          index_from_entity e' = index_from_entity e) :=
        fun hc => hii hc.2
      rw [hpbM, if_neg hcneg] at hx
      exact hx

lemma inv_remove {w w' : World} {t e : Nat} (hI : Inv w) (he : e < W64)
    (h : remove w t e = some w') : Inv w' := by
  obtain ⟨hv, hhas, hw'⟩ := remove_elim h
  have hpres := (has_true_iff.mp hhas).2.2
  have hpbR : ∀ p i,
      presBit (w.metabuffers.set (typePosition w t)
        ((w.metabuffers.getD (typePosition w t) []).set (index_from_entity e) false)) p i =
      if p = typePosition w t ∧ i = index_from_entity e then false
      else presBit w.metabuffers p i := by
    intro p i
    exact remove_presBit_set _ _ _ _ _
  subst hw'
  refine ⟨?_, hI.vlen, hI.vbound, ?_, ?_, ?_, ?_⟩
  · show w.type_positions.length = (List.set _ _ _).length
    rw [List.length_set]
    exact hI.tlen
  · intro p i hb
    have hb2 := hb
    rw [hpbR] at hb2
    by_cases hc : p = typePosition w t ∧ i = index_from_entity e
    · rw [if_pos hc] at hb2
      cases hb2
    · rw [if_neg hc] at hb2
      exact hI.mbdom p i hb2
  · intro fg hfg
    rw [List.mem_map] at hfg
    obtain ⟨fg0, hfg0, rfl⟩ := hfg
    by_cases hbit : dtl.contains fg0.1 (typePosition w t) = true
    · rw [if_pos hbit]
      exact hI.fne fg0 hfg0
    · rw [if_neg hbit]
      exact hI.fne fg0 hfg0
  · intro fg hfg e' he'
    rw [List.mem_map] at hfg
    obtain ⟨fg0, hfg0, rfl⟩ := hfg
    by_cases hbit : dtl.contains fg0.1 (typePosition w t) = true
    · rw [if_pos hbit] at he' ⊢
      obtain ⟨he'0, hne⟩ := mem_ss_erase.mp he'
      obtain ⟨hb, hv', hf⟩ := hI.gmem fg0 hfg0 e' he'0
      have hii : index_from_entity e' ≠ index_from_entity e :=
        fun hc => hne (valid_inj hb he hv' hv hc)
      refine ⟨hb, hv', ?_⟩
      intro p hp
      have hcneg : ¬(p = typePosition w t ∧
          index_from_entity e' = index_from_entity e) :=
        fun hc => hii hc.2
      rw [hpbR, if_neg hcneg]
      exact hf p hp
    · rw [if_neg hbit] at he' ⊢
      obtain ⟨hb, hv', hf⟩ := hI.gmem fg0 hfg0 e' he'
      refine ⟨hb, hv', ?_⟩
      intro p hp
      have hcneg : ¬(p = typePosition w t ∧
          index_from_entity e' = index_from_entity e) :=
        fun hc => hbit (hc.1 ▸ hp)
      rw [hpbR, if_neg hcneg]
      exact hf p hp
  · intro fg hfg e' hb hv' hf
    rw [List.mem_map] at hfg
    obtain ⟨fg0, hfg0, rfl⟩ := hfg
    by_cases hbit : dtl.contains fg0.1 (typePosition w t) = true
    · rw [if_pos hbit] at hf ⊢
      have hne : e' ≠ e := by
        intro hc
        subst hc
        have hx := hf (typePosition w t) hbit
        rw [hpbR, if_pos ⟨rfl, rfl⟩] at hx
        cases hx
      have hii : index_from_entity e' ≠ index_from_entity e :=
        fun hc => hne (valid_inj hb he hv' hv hc)
      have hf0 : FilterSat w.metabuffers fg0.1 (index_from_entity e') := by
        intro p hp
        have hx := hf p hp
        have hcneg : ¬(p = typePosition w t ∧
            index_from_entity e' = index_from_entity e) :=
          fun hc => hii hc.2
        rwa [hpbR, if_neg hcneg] at hx
      exact mem_ss_erase.mpr ⟨hI.gcompl fg0 hfg0 e' hb hv' hf0, hne⟩
    · rw [if_neg hbit] at hf ⊢
      have hf0 : FilterSat w.metabuffers fg0.1 (index_from_entity e') := by
        intro p hp
        have hx := hf p hp
        have hcneg : ¬(p = typePosition w t ∧
            index_from_entity e' = index_from_entity e) :=
          fun hc => hbit (hc.1 ▸ hp)
        rwa [hpbR, if_neg hcneg] at hx
      exact hI.gcompl fg0 hfg0 e' hb hv' hf0

end Ecfw

namespace Ecfw

/-! ### group_by, accommodateAll and view preserve the invariant -/

lemma group_by_elim {w : World} {ps : List Nat} {w' : World} {g : sparse_set.T}
    (h : group_by w ps = some (w', g)) :
    listMax ps < w.type_positions.length ∧ listMax ps < w.metabuffers.length ∧
      ((groupsFind w.groups (buildFilter ps) = some g ∧ w' = w) ∨
        (groupsFind w.groups (buildFilter ps) = none ∧ g = buildGroup w ps ∧
          w' = { w with
            groups := w.groups ++ [(buildFilter ps, buildGroup w ps)] })) := by
  unfold group_by at h
  by_cases hguard :
      listMax ps < w.type_positions.length ∧ listMax ps < w.metabuffers.length
  · rw [if_pos hguard] at h
    cases hfind : groupsFind w.groups (buildFilter ps) with
    | some g0 =>
        rw [hfind] at h
        have h2 : some (w, g0) = some (w', g) := h
        cases h2
        exact ⟨hguard.1, hguard.2, Or.inl ⟨rfl, rfl⟩⟩
    | none =>
        rw [hfind] at h
        have h2 : some ({ w with
            groups := w.groups ++ [(buildFilter ps, buildGroup w ps)] },
          buildGroup w ps) = some (w', g) := h
        cases h2
        exact ⟨hguard.1, hguard.2, Or.inr ⟨rfl, rfl, rfl⟩⟩
  · rw [if_neg hguard] at h
    cases h

lemma inv_group_by {w : World} {ps : List Nat} {w' : World} {g : sparse_set.T}
    (hI : Inv w) (hne : ps ≠ []) (h : group_by w ps = some (w', g)) :
    Inv w' := by
  obtain ⟨hg1, hg2, hc⟩ := group_by_elim h
  rcases hc with ⟨hfind, rfl⟩ | ⟨hfind, rfl, rfl⟩
  · exact hI
  · refine ⟨hI.tlen, hI.vlen, hI.vbound, hI.mbdom, ?_, ?_, ?_⟩
    · intro fg hfg
      rcases List.mem_append.mp hfg with hold | hnew
      · exact hI.fne fg hold
      · rw [List.mem_singleton] at hnew
        subst hnew
        cases ps with
        | nil => exact absurd rfl hne
        | cons q ps2 =>
            exact ⟨q, (contains_buildFilter _ q).mpr (List.mem_cons_self q ps2)⟩
    · intro fg hfg e' he'
      rcases List.mem_append.mp hfg with hold | hnew
      · exact hI.gmem fg hold e' he'
      · rw [List.mem_singleton] at hnew
        subst hnew
        obtain ⟨i, hi, hall, rfl⟩ := mem_buildGroup.mp he'
        have hi32 : i < W32 := Nat.lt_trans hi hI.vlen
        have hidx : index_from_entity (make_entity (w.versions.getD i 0) i) = i :=
          index_make_entity hi32
        have hver : version_from_entity (make_entity (w.versions.getD i 0) i) =
            w.versions.getD i 0 := version_make_entity (hI.vbound i) hi32
        refine ⟨make_entity_lt_W64 (hI.vbound i) hi32, ?_, ?_⟩
        · refine valid_iff.mpr ⟨?_, ?_⟩
          · rw [hidx]
            exact hi
          · rw [hidx, hver]
        · intro p hp
          rw [hidx]
          exact hall p ((contains_buildFilter ps p).mp hp)
    · intro fg hfg e' hb hv hf
      rcases List.mem_append.mp hfg with hold | hnew
      · exact hI.gcompl fg hold e' hb hv hf
      · rw [List.mem_singleton] at hnew
        subst hnew
        refine mem_buildGroup.mpr ⟨index_from_entity e', (valid_iff.mp hv).1,
          ?_, ?_⟩
        · intro p hp
          exact hf p ((contains_buildFilter ps p).mpr hp)
        · rw [(valid_iff.mp hv).2]
          exact (entity_eta hb).symm

lemma inv_accommodateAll {w : World} (hI : Inv w) (ts : List Nat) :
    Inv (accommodateAll w ts).1 := by
  induction ts generalizing w with
  | nil => exact hI
  | cons t ts ih => exact ih (inv_accommodate hI t)

lemma inv_view {w w' : World} {ts : List Nat} {g : sparse_set.T}
    (hI : Inv w) (h : view w ts = some (w', g)) : Inv w' := by
  unfold view at h
  by_cases hguard : ts ≠ [] ∧ ts.Nodup
  · rw [if_pos hguard] at h
    have hne : (accommodateAll w ts).2 ≠ [] := by
      cases ts with
      | nil => exact absurd rfl hguard.1
      | cons t ts2 =>
          unfold accommodateAll
          exact List.cons_ne_nil _ _
    exact inv_group_by (inv_accommodateAll hI ts) hne h
  · rw [if_neg hguard] at h
    cases h

/-- Every world reachable through the public interface satisfies the
consistency invariant. -/
lemma reachable_inv {w : World} (h : Reachable w) : Inv w := by
  induction h with
  | empty => exact inv_empty
  | do_create _ hc ih => exact inv_create ih hc
  | do_destroy _ he hd ih => exact inv_destroy ih he hd
  | do_orphan _ he ho ih => exact inv_orphan ih he ho
  | do_assign _ he ha ih => exact inv_assign ih he ha
  | do_remove _ he hrm ih => exact inv_remove ih he hrm
  | do_view _ hv ih => exact inv_view ih hv

end Ecfw

namespace Ecfw

/-! ### Remaining small helpers -/

lemma posInList_of_not_mem {t : Nat} {l : List Nat} (h : t ∉ l) :
    posInList t l = l.length := by
  induction l with
  | nil => rfl
  | cons x xs ih =>
      unfold posInList
      have hx : x ≠ t := fun hc => h (hc ▸ List.mem_cons_self x xs)
      rw [if_neg hx, ih (fun hc => h (List.mem_cons_of_mem x hc))]
      rfl

lemma containsType_false_iff {w : World} {t : Nat} :
    containsType w t = false ↔ t ∉ w.type_positions := by
  unfold containsType
  exact decide_eq_false_iff_not

lemma containsType_true_iff {w : World} {t : Nat} :
    containsType w t = true ↔ t ∈ w.type_positions := by
  unfold containsType
  exact decide_eq_true_iff

lemma bool_eq_of_iff {a b : Bool} (h : a = true ↔ b = true) : a = b := by
  cases a <;> cases b
  · rfl
  · cases h.mpr rfl
  · cases h.mp rfl
  · rfl

lemma accommodate_of_mem {w : World} {t : Nat} (h : t ∈ w.type_positions) :
    accommodate w t = (w, typePosition w t) := by
  unfold accommodate
  rw [if_pos h]

/-! ### Claim theorems -/

/-- C1: at any quiescent reachable state, a cached group for filter F
contains exactly the 64-bit identifiers that are valid and whose presence
bit is set at the identifier's index for every position of F — regardless
of whether the group was created before or after the matching entities
received their components (all reachable interleavings are covered). -/
theorem group_correctness {w : World} (hr : Reachable w) (f : Filter)
    (g : sparse_set.T) (hfg : (f, g) ∈ w.groups) (e : Nat) (he : e < W64) :
    e ∈ g ↔
      (valid w e = true ∧ FilterSat w.metabuffers f (index_from_entity e)) := by
  have hI := reachable_inv hr
  constructor
  · intro hmem
    obtain ⟨_, hv, hf⟩ := hI.gmem (f, g) hfg e hmem
    exact ⟨hv, hf⟩
  · rintro ⟨hv, hf⟩
    exact hI.gcompl (f, g) hfg e he hv hf

theorem group_correctness_witness :
    (0 : Nat) ∈ ([0] : sparse_set.T) ↔
      (valid wv3 0 = true ∧
        FilterSat wv3.metabuffers [true] (index_from_entity 0)) := by
  have hc1 : create emptyWorld = some (wv1, 0) := by decide
  have ha1 : assign wv1 5 0 = some wv2 := by decide
  have hv1 : view wv2 [5] = some (wv3, [0]) := by decide
  have r3 : Reachable wv3 :=
    Reachable.do_view
      (Reachable.do_assign
        (Reachable.do_create Reachable.empty hc1) (by decide) ha1) hv1
  exact group_correctness r3 [true] [0] (by decide) 0 (by decide)

/-- C2: destroying a valid entity and immediately creating a new one
returns an identifier with the same index and with version exactly one
higher; the old identifier is invalid afterwards, and no component type is
visible on the new identifier. -/
theorem destroy_create_roundtrip {w : World} {e : Nat} {w1 w2 : World}
    {e2 : Nat} (t : Nat) (hd : destroy w e = some w1)
    (hc : create w1 = some (w2, e2)) :
    index_from_entity e2 = index_from_entity e ∧
    version_from_entity e2 = version_from_entity e + 1 ∧
    valid w2 e = false ∧
    has w2 t e2 = false := by
  obtain ⟨wo, ho, hver, hw1⟩ := destroy_elim hd
  obtain ⟨hv, hwo⟩ := orphan_elim ho
  have hwov : wo.versions = w.versions := by rw [hwo]
  have hw1v : w1.versions = wo.versions.set (index_from_entity e)
      (version_from_entity e + 1) := by rw [hw1]
  have hw1f : w1.free_list = index_from_entity e :: wo.free_list := by rw [hw1]
  have hw1m : w1.metabuffers = wo.metabuffers := by rw [hw1]
  have hielt : index_from_entity e < wo.versions.length := by
    rw [hwov]
    exact (valid_iff.mp hv).1
  have hgd : w1.versions.getD (index_from_entity e) 0 =
      version_from_entity e + 1 := by
    rw [hw1v, getDSet, if_pos ⟨rfl, hielt⟩]
  rcases create_elim hc with ⟨idx, rest, hfl, hw2, he2⟩ | ⟨hfl, _, _, _⟩
  · rw [hw1f] at hfl
    injection hfl with hfa hfb
    subst hfa
    rw [hgd] at he2
    have h32lt : version_from_entity e + 1 < W32 := by
      have h32 : W32 = 4294967296 := rfl
      omega
    have hidx2 : index_from_entity e2 = index_from_entity e := by
      rw [he2, index_make_entity (index_lt_W32 e)]
    have hver2 : version_from_entity e2 = version_from_entity e + 1 := by
      rw [he2, version_make_entity h32lt (index_lt_W32 e)]
    refine ⟨hidx2, hver2, ?_, ?_⟩
    · have hw2v : w2.versions = w1.versions := by rw [hw2]
      refine Bool.eq_false_iff.mpr (fun hvt => ?_)
      have hx := (valid_iff.mp hvt).2
      rw [hw2v, hgd] at hx
      omega
    · refine Bool.eq_false_iff.mpr (fun hht => ?_)
      have hx := (has_true_iff.mp hht).2.2
      have hw2m : w2.metabuffers = w.metabuffers.map (fun mb =>
          if dtl.contains mb (index_from_entity e) then
            mb.set (index_from_entity e) false else mb) := by
        rw [hw2]
        show w1.metabuffers = _
        rw [hw1m, hwo]
      rw [hw2m, hidx2, orphan_presBit_map, if_pos rfl] at hx
      cases hx
  · rw [hw1f] at hfl
    exact absurd hfl (List.cons_ne_nil _ _)

theorem destroy_create_roundtrip_witness :
    index_from_entity 4294967296 = index_from_entity 0 ∧
    version_from_entity 4294967296 = version_from_entity 0 + 1 ∧
    valid (⟨[], [1], [], [], []⟩ : World) 0 = false ∧
    has (⟨[], [1], [], [], []⟩ : World) 3 4294967296 = false := by
  have hd : destroy wv1 0 = some (⟨[0], [1], [], [], []⟩ : World) := by decide
  have hc : create (⟨[0], [1], [], [], []⟩ : World) =
      some ((⟨[], [1], [], [], []⟩ : World), 4294967296) := by decide
  exact destroy_create_roundtrip 3 hd hc

/-- C9: has is a total predicate equal to the conjunction of validity and
the presence bit of the type's position at the identifier's index; it
returns false rather than failing on invalid identifiers and on types the
world never registered. -/
theorem has_characterization {w : World} (hr : Reachable w) (t e : Nat) :
    (has w t e = true ↔
      (valid w e = true ∧
        presBit w.metabuffers (typePosition w t) (index_from_entity e) = true)) ∧
    (valid w e = false → has w t e = false) ∧
    (containsType w t = false → has w t e = false) := by
  have hI := reachable_inv hr
  refine ⟨⟨?_, ?_⟩, ?_, ?_⟩
  · intro h
    have h2 := has_true_iff.mp h
    exact ⟨h2.1, h2.2.2⟩
  · rintro ⟨hv, hp⟩
    refine has_true_iff.mpr ⟨hv, ?_, hp⟩
    by_contra hc
    have hmem : t ∉ w.type_positions :=
      containsType_false_iff.mp (Bool.eq_false_iff.mpr hc)
    have hpos : typePosition w t = w.metabuffers.length := by
      unfold typePosition
      rw [posInList_of_not_mem hmem]
      exact hI.tlen
    unfold presBit at hp
    rw [hpos, List.getD_eq_default _ _ (Nat.le_refl _), contains_nil] at hp
    cases hp
  · intro hvf
    refine Bool.eq_false_iff.mpr (fun hht => ?_)
    rw [(has_true_iff.mp hht).1] at hvf
    cases hvf
  · intro hcf
    refine Bool.eq_false_iff.mpr (fun hht => ?_)
    rw [(has_true_iff.mp hht).2.1] at hcf
    cases hcf

theorem has_characterization_witness :
    (has wv2 5 0 = true ↔
      (valid wv2 0 = true ∧
        presBit wv2.metabuffers (typePosition wv2 5) (index_from_entity 0) = true)) ∧
    (valid wv2 0 = false → has wv2 5 0 = false) ∧
    (containsType wv2 5 = false → has wv2 5 0 = false) := by
  have hc1 : create emptyWorld = some (wv1, 0) := by decide
  have ha1 : assign wv1 5 0 = some wv2 := by decide
  have r2 : Reachable wv2 :=
    Reachable.do_assign (Reachable.do_create Reachable.empty hc1) (by decide) ha1
  exact has_characterization r2 5 0

end Ecfw

namespace Ecfw

/-- C3: destroying a valid entity erases it from every cached group (it
belongs to no group afterwards), clears every presence bit at its index,
stores version + 1 in the slot and pushes the index on the free list;
destroying an invalid identifier fails the validity assertion (none)
instead of being silently ignored. -/
theorem destroy_effects (w : World) (e : Nat) (w1 : World)
    (f : Filter) (g : sparse_set.T) (p : Nat) :
    (valid w e = false → destroy w e = none) ∧
    (destroy w e = some w1 →
      ((f, g) ∈ w1.groups → e ∉ g) ∧
      presBit w1.metabuffers p (index_from_entity e) = false ∧
      w1.versions.getD (index_from_entity e) 0 = version_from_entity e + 1 ∧
      w1.free_list = index_from_entity e :: w.free_list) := by
  refine ⟨destroy_none_of_invalid, ?_⟩
  intro hd
  obtain ⟨wo, ho, hver, hw1⟩ := destroy_elim hd
  obtain ⟨hv, hwo⟩ := orphan_elim ho
  have hwov : wo.versions = w.versions := by rw [hwo]
  have hwof : wo.free_list = w.free_list := by rw [hwo]
  have hielt : index_from_entity e < wo.versions.length := by
    rw [hwov]
    exact (valid_iff.mp hv).1
  refine ⟨?_, ?_, ?_, ?_⟩
  · intro hfg hmem
    have hgg : w1.groups =
        w.groups.map (fun fg => (fg.1, sparse_set.erase fg.2 e)) := by
      rw [hw1]
      show wo.groups = _
      rw [hwo]
    rw [hgg, List.mem_map] at hfg
    obtain ⟨fg0, _, hfgeq⟩ := hfg
    have hg : g = sparse_set.erase fg0.2 e := (congrArg Prod.snd hfgeq).symm
    rw [hg] at hmem
    exact (mem_ss_erase.mp hmem).2 rfl
  · have hm : w1.metabuffers = w.metabuffers.map (fun mb =>
        if dtl.contains mb (index_from_entity e) then
          mb.set (index_from_entity e) false else mb) := by
      rw [hw1]
      show wo.metabuffers = _
      rw [hwo]
    rw [hm, orphan_presBit_map, if_pos rfl]
  · have hw1v : w1.versions = wo.versions.set (index_from_entity e)
        (version_from_entity e + 1) := by rw [hw1]
    rw [hw1v, getDSet, if_pos ⟨rfl, hielt⟩]
  · have hw1f : w1.free_list = index_from_entity e :: wo.free_list := by
      rw [hw1]
    rw [hw1f, hwof]

theorem destroy_effects_witness :
    destroy wv3 9 = none ∧
    ((([true], ([] : sparse_set.T)) ∈ c3w1.groups → (0 : Nat) ∉ ([] : sparse_set.T)) ∧
      presBit c3w1.metabuffers 0 (index_from_entity 0) = false ∧
      c3w1.versions.getD (index_from_entity 0) 0 = version_from_entity 0 + 1 ∧
      c3w1.free_list = index_from_entity 0 :: wv3.free_list) := by
  have h9 : valid wv3 9 = false := by decide
  have hd : destroy wv3 0 = some c3w1 := by decide
  refine ⟨(destroy_effects wv3 9 c3w1 [true] [] 0).1 h9, ?_⟩
  exact (destroy_effects wv3 0 c3w1 [true] [] 0).2 hd

/-- C6: the free list is a LIFO stack; after destroying e1 then e2, the
next create reuses the index of e2 and the one after it the index of e1. -/
theorem free_list_lifo {w : World} {e1 e2 : Nat} {w1 w2 : World}
    (hd1 : destroy w e1 = some w1) (hd2 : destroy w1 e2 = some w2)
    {w3 w4 : World} {f1 f2 : Nat}
    (hc1 : create w2 = some (w3, f1)) (hc2 : create w3 = some (w4, f2)) :
    index_from_entity f1 = index_from_entity e2 ∧
    index_from_entity f2 = index_from_entity e1 := by
  obtain ⟨wo1, ho1, _, hw1⟩ := destroy_elim hd1
  obtain ⟨wo2, ho2, _, hw2⟩ := destroy_elim hd2
  obtain ⟨_, hwo1⟩ := orphan_elim ho1
  obtain ⟨_, hwo2⟩ := orphan_elim ho2
  have hw1f : w1.free_list = index_from_entity e1 :: wo1.free_list := by
    rw [hw1]
  have hwo2f : wo2.free_list = w1.free_list := by rw [hwo2]
  have hw2f : w2.free_list =
      index_from_entity e2 :: index_from_entity e1 :: wo1.free_list := by
    rw [hw2]
    show index_from_entity e2 :: wo2.free_list = _
    rw [hwo2f, hw1f]
  rcases create_elim hc1 with ⟨idx, rest, hfl, hw3, hf1⟩ | ⟨hfl, _, _, _⟩
  · rw [hw2f] at hfl
    injection hfl with hfa hfb
    subst hfa
    have hidx1 : index_from_entity f1 = index_from_entity e2 := by
      rw [hf1, index_make_entity (index_lt_W32 e2)]
    have hw3f : w3.free_list = index_from_entity e1 :: wo1.free_list := by
      rw [hw3]
      show rest = _
      rw [← hfb]
    rcases create_elim hc2 with ⟨idx2, rest2, hfl2, hw4, hf2⟩ | ⟨hfl2, _, _, _⟩
    · rw [hw3f] at hfl2
      injection hfl2 with hfa2 hfb2
      subst hfa2
      refine ⟨hidx1, ?_⟩
      rw [hf2, index_make_entity (index_lt_W32 e1)]
    · rw [hw3f] at hfl2
      exact absurd hfl2 (List.cons_ne_nil _ _)
  · rw [hw2f] at hfl
    exact absurd hfl (List.cons_ne_nil _ _)

theorem free_list_lifo_witness :
    index_from_entity 4294967297 = index_from_entity 1 ∧
    index_from_entity 4294967296 = index_from_entity 0 := by
  have hd1 : destroy c6w0 0 = some c6w1 := by decide
  have hd2 : destroy c6w1 1 = some c6w2 := by decide
  have hc1 : create c6w2 = some (c6w3, 4294967297) := by decide
  have hc2 : create c6w3 = some (c6w4, 4294967296) := by decide
  exact free_list_lifo hd1 hd2 hc1 hc2

/-- C8: an entity created at index 0, destroyed, recreated at the same
index with version 1, and destroyed again leaves a state where the
version-0 and version-1 identifiers of index 0 are invalid and only the
version-2 identifier is valid, even though index 0 is on the free list. -/
theorem version_validity_scenario :
    scen_recycle.map (fun w =>
      (valid w (make_entity 0 0), valid w (make_entity 1 0),
        valid w (make_entity 2 0), decide (0 ∈ w.free_list))) =
      some (false, false, true, true) := by
  rfl

/-- C10: from a reachable state in which index 0 sits on the free list,
assign accepts the identifier of index 0 and version 1 (it is valid and
owns nothing), sets its presence bit and inserts it into the cached group;
the next create then returns that very identifier, which already owns the
component and already belongs to the group. -/
theorem freed_slot_assign_exploit :
    Reachable c10w4 ∧
    valid c10w4 (make_entity 1 0) = true ∧
    has c10w4 0 (make_entity 1 0) = false ∧
    (0 : Nat) ∈ c10w4.free_list ∧
    assign c10w4 0 (make_entity 1 0) = some c10w5 ∧
    groupsFind c10w5.groups [true] = some [make_entity 1 0] ∧
    create c10w5 = some (c10w6, make_entity 1 0) ∧
    has c10w6 0 (make_entity 1 0) = true ∧
    make_entity 1 0 ∈ (groupsFind c10w6.groups [true]).getD [] := by
  refine ⟨?_, by decide, by decide, by decide, by decide, by decide,
    by decide, by decide, by decide⟩
  have hc1 : create emptyWorld = some (wv1, 0) := by decide
  have ha1 : assign wv1 0 0 = some c10w2 := by decide
  have hv1 : view c10w2 [0] = some (c10w3, [0]) := by decide
  have hd1 : destroy c10w3 0 = some c10w4 := by decide
  exact Reachable.do_destroy
    (Reachable.do_view
      (Reachable.do_assign
        (Reachable.do_create Reachable.empty hc1) (by decide) ha1) hv1)
    (by decide) hd1

end Ecfw

namespace Ecfw

/-- C4: removing an owned component clears its presence bit, erases the
entity from every cached group whose filter includes the type's position
(unconditionally), and leaves every other group's membership and every
other type's presence unchanged. -/
theorem remove_frame {w : World} {t e : Nat} {w1 : World}
    (hrm : remove w t e = some w1) (t2 e2 i : Nat) :
    has w1 t e = false ∧
    presBit w1.metabuffers (typePosition w t) (index_from_entity e) = false ∧
    (t2 ≠ t → has w1 t2 e2 = has w t2 e2) ∧
    w1.groups.length = w.groups.length ∧
    (w1.groups.getD i (([], []) : Filter × sparse_set.T)).1 =
      (w.groups.getD i ([], [])).1 ∧
    (e2 ∈ (w1.groups.getD i (([], []) : Filter × sparse_set.T)).2 ↔
      (e2 ∈ (w.groups.getD i ([], [])).2 ∧
        (dtl.contains (w.groups.getD i ([], [])).1 (typePosition w t) = true →
          e2 ≠ e))) := by
  obtain ⟨hv, hhas, hw1⟩ := remove_elim hrm
  have htreg : t ∈ w.type_positions :=
    containsType_true_iff.mp (has_true_iff.mp hhas).2.1
  have hw1m : w1.metabuffers = w.metabuffers.set (typePosition w t)
      ((w.metabuffers.getD (typePosition w t) []).set
        (index_from_entity e) false) := by rw [hw1]
  have hw1g : w1.groups = w.groups.map (fun fg =>
      if dtl.contains fg.1 (typePosition w t) then
        (fg.1, sparse_set.erase fg.2 e)
      else fg) := by rw [hw1]
  have hw1v : w1.versions = w.versions := by rw [hw1]
  have hw1t : w1.type_positions = w.type_positions := by rw [hw1]
  have hpb : ∀ p i2, presBit w1.metabuffers p i2 =
      if p = typePosition w t ∧ i2 = index_from_entity e then false
      else presBit w.metabuffers p i2 := by
    intro p i2
    rw [hw1m]
    exact remove_presBit_set _ _ _ _ _
  refine ⟨?_, ?_, ?_, ?_, ?_, ?_⟩
  · refine Bool.eq_false_iff.mpr (fun hht => ?_)
    have hx := (has_true_iff.mp hht).2.2
    have htp : typePosition w1 t = typePosition w t := by
      unfold typePosition
      rw [hw1t]
    rw [htp, hpb, if_pos ⟨rfl, rfl⟩] at hx
    cases hx
  · rw [hpb, if_pos ⟨rfl, rfl⟩]
  · intro hne
    apply bool_eq_of_iff
    rw [has_true_iff, has_true_iff]
    have hvv : valid w1 e2 = valid w e2 := valid_only_versions hw1v e2
    have hct : containsType w1 t2 = containsType w t2 := by
      unfold containsType
      rw [hw1t]
    have htp2 : typePosition w1 t2 = typePosition w t2 := by
      unfold typePosition
      rw [hw1t]
    constructor
    · rintro ⟨ha, hb, hc⟩
      rw [hvv] at ha
      rw [hct] at hb
      rw [htp2, hpb] at hc
      refine ⟨ha, hb, ?_⟩
      by_cases hcc : typePosition w t2 = typePosition w t ∧
          index_from_entity e2 = index_from_entity e
      · exact absurd (posInList_inj (containsType_true_iff.mp hb) htreg hcc.1) hne
      · rw [if_neg hcc] at hc
        exact hc
    · rintro ⟨ha, hb, hc⟩
      refine ⟨by rw [hvv]; exact ha, by rw [hct]; exact hb, ?_⟩
      rw [htp2, hpb]
      have hcc : ¬(typePosition w t2 = typePosition w t ∧
          index_from_entity e2 = index_from_entity e) :=
        fun hcq => hne (posInList_inj (containsType_true_iff.mp hb) htreg hcq.1)
      rw [if_neg hcc]
      exact hc
  · rw [hw1g, List.length_map]
  · by_cases hi : i < w.groups.length
    · rw [hw1g, getD_map_default _ _ _ (([], []) : Filter × sparse_set.T)
        ([], []) hi]
      by_cases hbit : dtl.contains (w.groups.getD i ([], [])).1
          (typePosition w t) = true
      · rw [if_pos hbit]
      · rw [if_neg hbit]
    · rw [hw1g, List.getD_eq_default _ _ (by
        rw [List.length_map]
        exact Nat.le_of_not_lt hi),
        List.getD_eq_default _ _ (Nat.le_of_not_lt hi)]
  · by_cases hi : i < w.groups.length
    · rw [hw1g, getD_map_default _ _ _ (([], []) : Filter × sparse_set.T)
        ([], []) hi]
      by_cases hbit : dtl.contains (w.groups.getD i ([], [])).1
          (typePosition w t) = true
      · rw [if_pos hbit]
        show e2 ∈ sparse_set.erase (w.groups.getD i ([], [])).2 e ↔ _
        rw [mem_ss_erase]
        constructor
        · rintro ⟨hm, hne2⟩
          exact ⟨hm, fun _ => hne2⟩
        · rintro ⟨hm, himp⟩
          exact ⟨hm, himp hbit⟩
      · rw [if_neg hbit]
        constructor
        · intro hm
          exact ⟨hm, fun hcq => absurd hcq hbit⟩
        · exact fun h => h.1
    · rw [hw1g, List.getD_eq_default _ _ (by
        rw [List.length_map]
        exact Nat.le_of_not_lt hi),
        List.getD_eq_default _ _ (Nat.le_of_not_lt hi)]
      constructor
      · intro hm
        exact absurd hm (List.not_mem_nil e2)
      · rintro ⟨hm, _⟩
        exact absurd hm (List.not_mem_nil e2)

theorem remove_frame_witness :
    has c4w1 5 0 = false ∧
    presBit c4w1.metabuffers (typePosition wv3 5) (index_from_entity 0) = false ∧
    ((7 : Nat) ≠ 5 → has c4w1 7 0 = has wv3 7 0) ∧
    c4w1.groups.length = wv3.groups.length ∧
    (c4w1.groups.getD 0 (([], []) : Filter × sparse_set.T)).1 =
      (wv3.groups.getD 0 ([], [])).1 ∧
    ((0 : Nat) ∈ (c4w1.groups.getD 0 (([], []) : Filter × sparse_set.T)).2 ↔
      ((0 : Nat) ∈ (wv3.groups.getD 0 ([], [])).2 ∧
        (dtl.contains (wv3.groups.getD 0 ([], [])).1 (typePosition wv3 5) = true →
          (0 : Nat) ≠ 0))) := by
  have hrm : remove wv3 5 0 = some c4w1 := by decide
  exact remove_frame hrm 7 0 0

end Ecfw

namespace Ecfw

lemma buildFilter_pair_comm (x y : Nat) (hxy : x ≠ y) :
    buildFilter [y, x] = buildFilter [x, y] := by
  unfold buildFilter listMax
  simp only [List.foldl_cons, List.foldl_nil]
  have hmax : Nat.max (Nat.max 0 y) x = Nat.max (Nat.max 0 x) y := by
    show (0 ⊔ y) ⊔ x = (0 ⊔ x) ⊔ y
    rw [Nat.max_assoc, Nat.max_comm y x, ← Nat.max_assoc]
  rw [hmax]
  exact List.set_comm true true _ (fun hc => hxy hc.symm)

/-- C5: requesting a view for the same two component types in either order
resolves to the same cached group entry: the second request leaves the
world unchanged and returns the very group the first request cached. -/
theorem view_order_insensitive {w : World} {a b : Nat} (hab : a ≠ b)
    {w1 w2 : World} {g1 g2 : sparse_set.T}
    (h1 : view w [a, b] = some (w1, g1))
    (h2 : view w1 [b, a] = some (w2, g2)) :
    w2 = w1 ∧ g2 = g1 := by
  have hguard1 : ([a, b] : List Nat) ≠ [] ∧ ([a, b] : List Nat).Nodup := by
    refine ⟨List.cons_ne_nil _ _, ?_⟩
    simp [hab]
  have hguard2 : ([b, a] : List Nat) ≠ [] ∧ ([b, a] : List Nat).Nodup := by
    refine ⟨List.cons_ne_nil _ _, ?_⟩
    simp [Ne.symm hab]
  unfold view at h1 h2
  rw [if_pos hguard1] at h1
  rw [if_pos hguard2] at h2
  have h1' : group_by ((accommodate (accommodate w a).1 b).1)
      [(accommodate w a).2, (accommodate (accommodate w a).1 b).2] =
      some (w1, g1) := h1
  have hamem : a ∈ ((accommodate (accommodate w a).1 b).1).type_positions :=
    accommodate_tp_mono b (accommodate_mem w a)
  have hbmem : b ∈ ((accommodate (accommodate w a).1 b).1).type_positions :=
    accommodate_mem (accommodate w a).1 b
  have hpa_eq : (accommodate w a).2 =
      posInList a ((accommodate (accommodate w a).1 b).1).type_positions :=
    (accommodate_pos w a).trans
      (accommodate_stable b (accommodate_mem w a)).symm
  have hpb_eq : (accommodate (accommodate w a).1 b).2 =
      posInList b ((accommodate (accommodate w a).1 b).1).type_positions :=
    accommodate_pos (accommodate w a).1 b
  have hpapb : (accommodate w a).2 ≠ (accommodate (accommodate w a).1 b).2 := by
    intro hcq
    exact hab (posInList_inj hamem hbmem (by rw [← hpa_eq, ← hpb_eq, hcq]))
  obtain ⟨hg1a, hg1b, hcase⟩ := group_by_elim h1'
  suffices hcont :
      w1.type_positions = ((accommodate (accommodate w a).1 b).1).type_positions ∧
      groupsFind w1.groups
        (buildFilter [(accommodate w a).2,
          (accommodate (accommodate w a).1 b).2]) = some g1 →
      (w2 = w1 ∧ g2 = g1) by
    rcases hcase with ⟨hfind, rfl⟩ | ⟨hfind, hg1eq, rfl⟩
    · exact hcont ⟨rfl, hfind⟩
    · refine hcont ⟨rfl, ?_⟩
      show groupsFind (((accommodate (accommodate w a).1 b).1).groups ++
        [(buildFilter [(accommodate w a).2, (accommodate (accommodate w a).1 b).2],
          buildGroup ((accommodate (accommodate w a).1 b).1)
            [(accommodate w a).2, (accommodate (accommodate w a).1 b).2])])
        (buildFilter [(accommodate w a).2,
          (accommodate (accommodate w a).1 b).2]) = some g1
      rw [groupsFind_append_of_none hfind, groupsFind_cons, if_pos rfl, hg1eq]
  rintro ⟨htp1, hfind1⟩
  have hbmem1 : b ∈ w1.type_positions := by
    rw [htp1]
    exact hbmem
  have hamem1 : a ∈ w1.type_positions := by
    rw [htp1]
    exact hamem
  have hb1 : accommodate w1 b = (w1, typePosition w1 b) :=
    accommodate_of_mem hbmem1
  have ha1 : accommodate w1 a = (w1, typePosition w1 a) :=
    accommodate_of_mem hamem1
  have hAll2 : accommodateAll w1 [b, a] =
      (w1, [typePosition w1 b, typePosition w1 a]) := by
    show ((accommodate (accommodate w1 b).1 a).1,
      [(accommodate w1 b).2, (accommodate (accommodate w1 b).1 a).2]) = _
    rw [hb1]
    show ((accommodate w1 a).1, [typePosition w1 b, (accommodate w1 a).2]) = _
    rw [ha1]
  rw [hAll2] at h2
  have h2' : group_by w1 [typePosition w1 b, typePosition w1 a] =
      some (w2, g2) := h2
  have htpb : typePosition w1 b = (accommodate (accommodate w a).1 b).2 := by
    unfold typePosition
    rw [htp1, ← hpb_eq]
  have htpa : typePosition w1 a = (accommodate w a).2 := by
    unfold typePosition
    rw [htp1, ← hpa_eq]
  rw [htpb, htpa] at h2'
  have hFcomm : buildFilter [(accommodate (accommodate w a).1 b).2,
      (accommodate w a).2] = buildFilter [(accommodate w a).2,
      (accommodate (accommodate w a).1 b).2] :=
    buildFilter_pair_comm _ _ hpapb
  unfold group_by at h2'
  by_cases hguard3 : listMax [(accommodate (accommodate w a).1 b).2,
      (accommodate w a).2] < w1.type_positions.length ∧
      listMax [(accommodate (accommodate w a).1 b).2,
        (accommodate w a).2] < w1.metabuffers.length
  · rw [if_pos hguard3, hFcomm, hfind1] at h2'
    have h2'' : some (w1, g1) = some (w2, g2) := h2'
    have hpair := Option.some.inj h2''
    exact ⟨(congrArg Prod.fst hpair).symm, (congrArg Prod.snd hpair).symm⟩
  · rw [if_neg hguard3] at h2'
    cases h2'

theorem view_order_insensitive_witness : c5w1 = c5w1 ∧
    ([] : sparse_set.T) = ([] : sparse_set.T) := by
  have h1 : view emptyWorld [0, 1] = some (c5w1, []) := by decide
  have h2 : view c5w1 [1, 0] = some (c5w1, []) := by decide
  exact view_order_insensitive (by decide) h1 h2

end Ecfw

namespace Ecfw

set_option maxRecDepth 100000

/-- C7: in the concrete scenario (100 entities, views for type sets with
positions for types 0, 1 and both created before any assignment), after
assigning type 0 to all 100 entities the filter-0 group has 100 entries
and the two-type group none; after assigning type 1 to the first 50, the
filter-1 group has 50 entries and the two-type group holds exactly the
first 50 entities in creation order; after removing type 0 from the first
25, the two-type group has 25 entries and the filter-0 group 75. -/
theorem concrete_group_scenario :
    scen_stage1.bind (fun w => groupSize w [true]) = some 100 ∧
    scen_stage1.bind (fun w => groupSize w [true, true]) = some 0 ∧
    scen_stage2.bind (fun w => groupSize w [false, true]) = some 50 ∧
    scen_stage2.bind (fun w => groupsFind w.groups [true, true]) =
      some (List.range 50) ∧
    scen_stage3.bind (fun w => groupSize w [true, true]) = some 25 ∧
    scen_stage3.bind (fun w => groupSize w [true]) = some 75 :=
  ⟨by rfl, by rfl, by rfl, by rfl, by rfl, by rfl⟩

end Ecfw
